import Mathlib

/-
Shallow embedding of a variable-elimination engine for discrete Bayesian
networks (factor.py, bayes.py) together with the hemophilia-pedigree
network producer (genetics.py).

Python dictionaries are modelled as association lists looked up by first
match; building a dictionary entry is modelled by an update-or-append
operation, so insertion order and overwriting behave as in Python.
Python floats are modelled by exact rationals. Python exceptions are
modelled by the `Except` monad with one constructor per distinct error
raised by the source.
-/

set_option maxHeartbeats 1000000

deriving instance DecidableEq for Except

attribute [local semireducible] Rat.mul Rat.add Rat.sub Rat.inv

namespace Bloodlines

/-- Error kinds raised by the source code. `missingVariable` and
`keyNotFound` are the two KeyErrors raised by `Factor.__getitem__`
(distinguished by their message in the source); `keyError` is a plain
KeyError from indexing a dictionary (`domains[v]`, `ev[v]`);
`valueError` is the ValueError raised by `list.index` in `marginalize`;
`zeroDivisionError` is the error raised by Python float division when
the denominator is zero in `compute_conditional`. -/
inductive Err where
  | missingVariable (v : String)
  | keyNotFound
  | keyError (v : String)
  | valueError
  | zeroDivisionError
deriving DecidableEq, Repr

/-- An event: a Python dict mapping variable names to values. -/
abbrev Event := List (String × String)

/-- A factor table: a Python dict mapping assignment tuples to floats. -/
abbrev Table := List (List String × ℚ)

/-- The domain registry: a Python dict mapping a variable to its values. -/
abbrev Domains := List (String × List String)

/-- Dictionary lookup: the value of the first entry with the given key. -/
def dictFind {α β : Type} [DecidableEq α] : List (α × β) → α → Option β
  | [], _ => none
  | (k', v) :: rest, k => if k' = k then some v else dictFind rest k

/-- Dictionary assignment `d[k] = v`: overwrite in place, else append. -/
def dictSet {α β : Type} [DecidableEq α] : List (α × β) → α → β → List (α × β)
  | [], k, v => [(k, v)]
  | (k', v') :: rest, k, v =>
    if k' = k then (k, v) :: rest else (k', v') :: dictSet rest k v

/-- Accumulation `d[k] += q` into a `defaultdict(float)`. -/
def dictAdd {α : Type} [DecidableEq α] : List (α × ℚ) → α → ℚ → List (α × ℚ)
  | [], k, q => [(k, q)]
  | (k', q') :: rest, k, q =>
    if k' = k then (k', q' + q) :: rest else (k', q') :: dictAdd rest k q

/-- Python `list.index` returning the first index, `none` for ValueError. -/
def indexOf : List String → String → Option Nat
  | [], _ => none
  | v :: rest, x => if v = x then some 0 else (indexOf rest x).map (· + 1)

/-- A factor: an ordered scope together with its value table
(class `Factor` in factor.py). -/
structure Factor where
  «variables» : List String
  values : Table
deriving DecidableEq, Repr

/-- Key construction loop of `Factor.__getitem__`: project the event onto
the scope in scope order, failing on the first missing variable. -/
def buildKey : List String → Event → Except Err (List String)
  | [], _ => .ok []
  | v :: rest, event =>
    match dictFind event v with
    | none => .error (Err.missingVariable v)
    | some x => (buildKey rest event).map (fun key => x :: key)

/-- Factor lookup `Factor.__getitem__` from factor.py. -/
def Factor.getItem (f : Factor) (event : Event) : Except Err ℚ :=
  match buildKey f.variables event with
  | .error e => .error e
  | .ok key =>
    match dictFind f.values key with
    | some q => .ok q
    | none => .error Err.keyNotFound

/-- Cartesian product of a list of domains, in the enumeration order of
`itertools.product` (leftmost coordinate varies slowest). -/
def listProd : List (List String) → List (List String)
  | [] => [[]]
  | d :: ds => d.flatMap (fun x => (listProd ds).map (fun xs => x :: xs))

/-- The `[domains[v] for v in vars]` comprehension in `events`,
raising KeyError when a variable has no registered domain. -/
def domLists : List String → Domains → Except Err (List (List String))
  | [], _ => .ok []
  | v :: rest, domains =>
    match dictFind domains v with
    | none => .error (Err.keyError v)
    | some dl => (domLists rest domains).map (fun ds => dl :: ds)

/-- Function `events` from factor.py: all assignments of `vars` drawn
from the registry, each event built in the order of `vars`. -/
def events (vars : List String) (domains : Domains) :
    Except Err (List Event) :=
  match domLists vars domains with
  | .error e => .error e
  | .ok dom_lists =>
    .ok ((listProd dom_lists).map (fun values => vars.zip values))

/-- Accumulation loop of `marginalize`: strip position `idx` from each
key and add the value into the bucket of the reduced key. -/
def sumReduce : Table → Nat → Table → Table
  | [], _, acc => acc
  | (key, value) :: rest, idx, acc =>
    sumReduce rest idx (dictAdd acc (key.take idx ++ key.drop (idx + 1)) value)

/-- Function `marginalize` from factor.py (sum-out). -/
def marginalize (f : Factor) (var : String) : Except Err Factor :=
  match indexOf f.variables var with
  | none => .error Err.valueError
  | some idx =>
    .ok ⟨f.variables.filter (fun v => v ≠ var), sumReduce f.values idx []⟩

/-- Scope-union fold of `multiply_factors`: append a variable if unseen. -/
def insertNew (acc : List String) (v : String) : List String :=
  if v ∈ acc then acc else acc ++ [v]

/-- The inner product loop `prod_val *= f[ev]` of `multiply_factors`. -/
def prodVals : List Factor → Event → ℚ → Except Err ℚ
  | [], _, acc => .ok acc
  | f :: rest, ev, acc =>
    match f.getItem ev with
    | .error e => .error e
    | .ok q => prodVals rest ev (acc * q)

/-- The `tuple(ev[v] for v in new_vars)` key of `multiply_factors`. -/
def rawKey : List String → Event → Except Err (List String)
  | [], _ => .ok []
  | v :: rest, ev =>
    match dictFind ev v with
    | none => .error (Err.keyError v)
    | some x => (rawKey rest ev).map (fun key => x :: key)

/-- The table-construction loop of `multiply_factors`. -/
def buildVals : List Event → List Factor → List String → Table →
    Except Err Table
  | [], _, _, acc => .ok acc
  | ev :: rest, factors, new_vars, acc =>
    match prodVals factors ev 1 with
    | .error e => .error e
    | .ok prod_val =>
      match rawKey new_vars ev with
      | .error e => .error e
      | .ok key => buildVals rest factors new_vars (dictSet acc key prod_val)

/-- The union-scope loop shared by `multiply_factors` and the derived
variable set of `BayesianNetwork`: all scope variables in order of first
occurrence. -/
def unionVars (factors : List Factor) : List String :=
  factors.foldl (fun acc f => f.variables.foldl insertNew acc) []

/-- Function `multiply_factors` from factor.py (join). -/
def multiply_factors (factors : List Factor) (domains : Domains) :
    Except Err Factor :=
  let new_vars := unionVars factors
  match events new_vars domains with
  | .error e => .error e
  | .ok evs =>
    match buildVals evs factors new_vars [] with
    | .error e => .error e
    | .ok new_vals => .ok ⟨new_vars, new_vals⟩

/-- Class `BayesianNetwork` from bayes.py. -/
structure BayesianNetwork where
  factors : List Factor
  domains : Domains
deriving DecidableEq, Repr

/-- The derived variable set of a network (`self.variables` in bayes.py,
a Python set), represented as the first-occurrence list of all scope
variables. -/
def BayesianNetwork.varsList (bn : BayesianNetwork) : List String :=
  unionVars bn.factors

/-- Function `eliminate` from bayes.py. -/
def eliminate (bnet : BayesianNetwork) (v : String) :
    Except Err BayesianNetwork :=
  let with_var := bnet.factors.filter (fun f => v ∈ f.variables)
  let without_var := bnet.factors.filter (fun f => v ∉ f.variables)
  match multiply_factors with_var bnet.domains with
  | .error e => .error e
  | .ok product =>
    match marginalize product v with
    | .error e => .error e
    | .ok reduced => .ok ⟨without_var ++ [reduced], bnet.domains⟩

/-- The elimination loop of `compute_marginal`. -/
def elimFold : BayesianNetwork → List String → Except Err BayesianNetwork
  | bn, [] => .ok bn
  | bn, v :: rest =>
    match eliminate bn v with
    | .error e => .error e
    | .ok bn2 => elimFold bn2 rest

/-- The set `bn.variables - vars` iterated by `compute_marginal`. The
source iterates a Python set in unspecified order; the embedding fixes
the first-occurrence order (the numeric result is order independent,
which is proved below). -/
def elimOrder (bnet : BayesianNetwork) (vars : List String) : List String :=
  bnet.varsList.filter (fun v => v ∉ vars)

/-- Function `compute_marginal` from bayes.py. -/
def compute_marginal (bnet : BayesianNetwork) (vars : List String) :
    Except Err Factor :=
  match elimFold bnet (elimOrder bnet vars) with
  | .error e => .error e
  | .ok bn => multiply_factors bn.factors bnet.domains

/-- The pipeline of `compute_marginal` run with an explicit elimination
order: eliminate the listed variables in order, then join what remains.
`compute_marginal bnet vars` is exactly this pipeline at the embedding's
canonical order `elimOrder bnet vars`. -/
def compute_marginal_order (bnet : BayesianNetwork) (order : List String) :
    Except Err Factor :=
  match elimFold bnet order with
  | .error e => .error e
  | .ok bn => multiply_factors bn.factors bnet.domains

/-- Function `compute_conditional` from bayes.py. The merged dict
`a-union-b` with b overriding a is modelled by list append with the
overriding event first (lookup is by first match). Python raises
ZeroDivisionError on `num / denom` when `denom` is zero copies of a
float; the embedding makes that raise explicit. -/
def compute_conditional (bnet : BayesianNetwork) (event evidence : Event) :
    Except Err ℚ :=
  let scope_e := event.map Prod.fst ++ evidence.map Prod.fst
  match compute_marginal bnet scope_e with
  | .error e => .error e
  | .ok joint =>
    match joint.getItem (evidence ++ event) with
    | .error e => .error e
    | .ok num =>
      match compute_marginal bnet (evidence.map Prod.fst) with
      | .error e => .error e
      | .ok denom_factor =>
        match denom_factor.getItem evidence with
        | .error e => .error e
        | .ok denom =>
          if denom = 0 then .error Err.zeroDivisionError
          else .ok (num / denom)

/-- Class `FamilyMember` from genetics.py (with the `Male`/`Female`
subclasses represented by the stored `sex` string). -/
inductive FamilyMember where
  | mk (name : String) (sex : String)
      (mother : Option FamilyMember) (father : Option FamilyMember)

def FamilyMember.get_name : FamilyMember → String
  | .mk n _ _ _ => n

def FamilyMember.get_sex : FamilyMember → String
  | .mk _ s _ _ => s

def FamilyMember.mother : FamilyMember → Option FamilyMember
  | .mk _ _ m _ => m

def FamilyMember.father : FamilyMember → Option FamilyMember
  | .mk _ _ _ f => f

/-- Function `create_variable_domains` from genetics.py. -/
def create_variable_domains (family : List FamilyMember) : Domains :=
  family.foldl (fun result person =>
    let name := person.get_name
    let r1 := dictSet result ("M_" ++ name) ["x", "X"]
    let r2 := dictSet r1 ("H_" ++ name) ["-", "+"]
    if person.get_sex = "female" then
      dictSet (dictSet r2 ("P_" ++ name) ["x", "X"])
        ("G_" ++ name) ["xx", "xX", "XX"]
    else
      dictSet r2 ("G_" ++ name) ["xy", "Xy"]) []

/-- Function `create_hemophilia_cpt` from genetics.py. -/
def create_hemophilia_cpt (person : FamilyMember) : Factor :=
  let name := person.get_name
  let H_N := "H_" ++ name
  let G_N := "G_" ++ name
  let genotypes : List String :=
    if person.get_sex = "female" then ["xx", "xX", "XX"] else ["xy", "Xy"]
  let hemo : String → String :=
    if person.get_sex = "female" then
      fun g => if g = "XX" then "+" else "-"
    else
      fun g => if g = "Xy" then "+" else "-"
  let values := genotypes.foldl (fun vals g =>
    let v1 := dictSet vals [g, "-"] (if hemo g = "-" then 1 else 0)
    dictSet v1 [g, "+"] (if hemo g = "+" then 1 else 0)) []
  ⟨[G_N, H_N], values⟩

/-- Function `create_genotype_cpt` from genetics.py. -/
def create_genotype_cpt (person : FamilyMember) : Factor :=
  let name := person.get_name
  let G_N := "G_" ++ name
  let M_N := "M_" ++ name
  if person.get_sex = "female" then
    let P_N := "P_" ++ name
    let values := ["x", "X"].foldl (fun vals m =>
      ["x", "X"].foldl (fun vals2 p =>
        let g := if m = "x" ∧ p = "x" then "xx"
          else if m = "X" ∧ p = "X" then "XX" else "xX"
        ["xx", "xX", "XX"].foldl (fun vals3 g_vars =>
          dictSet vals3 [m, p, g_vars] (if g_vars = g then 1 else 0)) vals2)
        vals) []
    ⟨[M_N, P_N, G_N], values⟩
  else
    let values := ["x", "X"].foldl (fun vals m =>
      let g := m ++ "y"
      ["xy", "Xy"].foldl (fun vals2 g_vars =>
        dictSet vals2 [m, g_vars] (if g_vars = g then 1 else 0)) vals) []
    ⟨[M_N, G_N], values⟩

/-- Function `create_maternal_inheritance_cpt` from genetics.py, with the
founder mutation rate 1/30000 for members without a recorded mother. -/
def create_maternal_inheritance_cpt (person : FamilyMember) : Factor :=
  let name := person.get_name
  let M_N := "M_" ++ name
  match person.mother with
  | none => ⟨[M_N], [(["x"], 29999/30000), (["X"], 1/30000)]⟩
  | some mom =>
    let G_A := "G_" ++ mom.get_name
    let values := ["xx", "xX", "XX"].foldl (fun vals ga =>
      if ga = "xx" then dictSet (dictSet vals [ga, "x"] 1) [ga, "X"] 0
      else if ga = "xX" then
        dictSet (dictSet vals [ga, "x"] (1/2)) [ga, "X"] (1/2)
      else dictSet (dictSet vals [ga, "x"] 0) [ga, "X"] 1) []
    ⟨[G_A, M_N], values⟩

/-- Function `create_paternal_inheritance_cpt` from genetics.py. In the
source the first guard compares the bound method `person.get_sex` itself
(not its result) to a string, so that branch can never be taken and is
omitted here. -/
def create_paternal_inheritance_cpt (person : FamilyMember) : Factor :=
  let name := person.get_name
  let P_N := "P_" ++ name
  match person.father with
  | none => ⟨[P_N], [(["x"], 29999/30000), (["X"], 1/30000)]⟩
  | some dad =>
    let G_A := "G_" ++ dad.get_name
    let values := ["xy", "Xy"].foldl (fun vals ga =>
      if ga = "xy" then dictSet (dictSet vals [ga, "x"] 1) [ga, "X"] 0
      else dictSet (dictSet vals [ga, "x"] 0) [ga, "X"] 1) []
    ⟨[G_A, P_N], values⟩

/-- Function `create_family_bayes_net` from genetics.py. -/
def create_family_bayes_net (family : List FamilyMember) : BayesianNetwork :=
  let domains := create_variable_domains family
  let cpts := family.foldl (fun cpts person =>
    let cpts2 :=
      if person.get_sex = "female" then
        cpts ++ [create_paternal_inheritance_cpt person]
      else cpts
    cpts2 ++ [create_maternal_inheritance_cpt person,
      create_genotype_cpt person, create_hemophilia_cpt person]) []
  ⟨cpts, domains⟩

/-- The two-generation family of the pedigree scenario: a founder mother
with no recorded parents and her son with no recorded father. -/
def hemMother : FamilyMember := .mk "m" "female" none none

def hemSon : FamilyMember := .mk "s" "male" (some hemMother) none

def hemNet : BayesianNetwork := create_family_bayes_net [hemMother, hemSon]

/-- The value a factor's table stores for an assignment: the table entry
at the key obtained by projecting the assignment onto the scope in scope
order, and 0 for a key the table does not hold. -/
def Factor.valueAt (f : Factor) (σ : String → String) : ℚ :=
  (dictFind f.values (f.variables.map σ)).getD 0

/-- The product of all factors of a network at an assignment: the joint
value the network represents. -/
def netValue (net : BayesianNetwork) (σ : String → String) : ℚ :=
  (net.factors.map (fun f => f.valueAt σ)).prod

/-- Point update of an assignment. -/
def upd (σ : String → String) (v d : String) : String → String :=
  fun u => if u = v then d else σ u

/-- The registered domain of a variable ([] when unregistered). -/
def domOf (doms : Domains) (v : String) : List String :=
  (dictFind doms v).getD []

/-- Iterated sum of an assignment functional over the domains of a list
of variables. -/
def sumOver (doms : Domains) : List String → ((String → String) → ℚ) →
    (String → String) → ℚ
  | [], F, σ => F σ
  | v :: rest, F, σ =>
    ((domOf doms v).map (fun d => sumOver doms rest F (upd σ v d))).sum

/-- First-occurrence deduplication, written independently of the fold in
`multiply_factors`: keep each element's first occurrence, in order. -/
def dedupFO : List String → List String
  | [] => []
  | v :: rest => v :: (dedupFO rest).filter (fun u => u ≠ v)

/-- Well-formed domain registry: every registered domain is a non-empty
list of distinct value labels. -/
def DomsWF (doms : Domains) : Prop :=
  ∀ p ∈ doms, p.2 ≠ [] ∧ p.2.Nodup

/-- Well-formed factor over a registry: distinct scope variables, each
with a registered domain, and the table's keys are exactly the full
assignment tuples over the scope (each exactly once). -/
def FactorWF (doms : Domains) (f : Factor) : Prop :=
  f.variables.Nodup ∧ (∀ v ∈ f.variables, (dictFind doms v).isSome) ∧
    (f.values.map Prod.fst).Perm (listProd (f.variables.map (domOf doms)))

/-- Well-formed network: well-formed registry and factors. -/
def NetWF (bn : BayesianNetwork) : Prop :=
  DomsWF bn.domains ∧ ∀ f ∈ bn.factors, FactorWF bn.domains f

instance (doms : Domains) : Decidable (DomsWF doms) := by
  unfold DomsWF
  infer_instance

instance (doms : Domains) (f : Factor) : Decidable (FactorWF doms f) := by
  unfold FactorWF
  infer_instance

instance (bn : BayesianNetwork) : Decidable (NetWF bn) := by
  unfold NetWF
  infer_instance

/-- Concrete factor P(A) with a zero-probability value, used to witness
the error-path claims. -/
def cexA : Factor := ⟨["A"], [(["a1"], 0), (["a2"], 1)]⟩

/-- Concrete uniform factor P(B). -/
def cexB : Factor := ⟨["B"], [(["b1"], 1/2), (["b2"], 1/2)]⟩

/-- Concrete two-variable network with P(A = a1) = 0. -/
def cexNet : BayesianNetwork :=
  ⟨[cexA, cexB], [("A", ["a1", "a2"]), ("B", ["b1", "b2"])]⟩

/-- Concrete one-variable network used for the scope counterexample. -/
def cex5Net : BayesianNetwork := ⟨[⟨["A"], [(["a1"], 1)]⟩], [("A", ["a1"])]⟩

/-- The assignment an enumerated event represents: the zip of the union
scope with a value tuple, read back as a function. -/
def tupleAssign (U t : List String) : String → String :=
  fun u => (dictFind (U.zip t) u).getD ""

/-- The table `multiply_factors` builds, described directly: every full
assignment tuple over the union scope mapped to the product of the input
factors' values at that assignment. -/
def joinTable (fs : List Factor) (doms : Domains) (U : List String) : Table :=
  (listProd (U.map (domOf doms))).map
    (fun t => (t, (fs.map (fun f => f.valueAt (tupleAssign U t))).prod))

/-- Concrete assignment used by the witnesses. -/
def demoσ : String → String := fun u => if u = "A" then "a1" else "b1"

/-- Concrete two-variable factor used to witness mass conservation. -/
def demoF : Factor :=
  ⟨["A", "B"], [(["a1", "b1"], 1), (["a1", "b2"], 2),
    (["a2", "b1"], 3), (["a2", "b2"], 4)]⟩

theorem dictAdd_snd_sum {α : Type} [DecidableEq α] (d : List (α × ℚ))
    (k : α) (q : ℚ) :
    ((dictAdd d k q).map Prod.snd).sum = (d.map Prod.snd).sum + q := by
  induction d with
  | nil => simp [dictAdd]
  | cons p rest ih =>
    obtain ⟨k', q'⟩ := p
    by_cases h : k' = k <;> simp [dictAdd, h, ih] <;> ring

theorem sumReduce_snd_sum (L : Table) (idx : Nat) (acc : Table) :
    ((sumReduce L idx acc).map Prod.snd).sum =
      (acc.map Prod.snd).sum + (L.map Prod.snd).sum := by
  induction L generalizing acc with
  | nil => simp [sumReduce]
  | cons p rest ih =>
    obtain ⟨key, value⟩ := p
    simp [sumReduce, ih, dictAdd_snd_sum]
    ring

theorem indexOf_mem {l : List String} {v : String} (h : v ∈ l) :
    ∃ idx, indexOf l v = some idx := by
  induction l with
  | nil => cases h
  | cons x rest ih =>
    by_cases hx : x = v
    · exact ⟨0, by simp [indexOf, hx]⟩
    · have hv : v ∈ rest := by
        rcases List.mem_cons.mp h with h1 | h1
        · exact absurd h1.symm hx
        · exact h1
      obtain ⟨idx, hidx⟩ := ih hv
      exact ⟨idx + 1, by simp [indexOf, hx, hidx]⟩

/-- Claim C3: mass conservation of `marginalize` (sum_out). For every
factor whose table keys have one entry per scope variable and every
variable in its scope, summing the variable out succeeds and the sum of
all values of the resulting table equals the sum of all values of the
input table. -/
theorem claim3_mass_conservation (f : Factor) (v : String)
    (hkeys : ∀ p ∈ f.values, p.1.length = f.variables.length)
    (hv : v ∈ f.variables) :
    ∃ g, marginalize f v = Except.ok g ∧
      (g.values.map Prod.snd).sum = (f.values.map Prod.snd).sum := by
  obtain ⟨idx, hidx⟩ := indexOf_mem hv
  refine ⟨_, by rw [marginalize, hidx], ?_⟩
  simpa using sumReduce_snd_sum f.values idx []

/-- Witness for C3 at a concrete factor and variable. -/
theorem claim3_witness :
    ∃ g, marginalize demoF "A" = Except.ok g ∧
      (g.values.map Prod.snd).sum = (demoF.values.map Prod.snd).sum :=
  claim3_mass_conservation demoF "A" (by decide) (by decide)

/-- Claim C9: `multiply_factors` applied to the empty list of factors
returns the empty-scope identity factor, whose table holds exactly the
empty assignment with value 1. -/
theorem claim9_empty_join_identity (domains : Domains) :
    multiply_factors [] domains = Except.ok ⟨[], [([], 1)]⟩ := rfl

/-- Claim C10: eliminating a variable that occurs in no factor's scope
fails (the sum-out step raises the ValueError of `list.index` on the
empty-scope identity factor produced by the empty join) instead of
returning the network unchanged. -/
theorem claim10_eliminate_absent_var_fails (bnet : BayesianNetwork)
    (v : String) (h : ∀ f ∈ bnet.factors, v ∉ f.variables) :
    eliminate bnet v = Except.error Err.valueError := by
  have hw : bnet.factors.filter (fun f => v ∈ f.variables) = [] := by
    rw [List.filter_eq_nil_iff]
    intro f hf
    simpa using h f hf
  rw [eliminate, hw]
  rfl

/-- Witness for C10 at a concrete network and absent variable. -/
theorem claim10_witness :
    eliminate cex5Net "B" = Except.error Err.valueError :=
  claim10_eliminate_absent_var_fails cex5Net "B" (by decide)

/-- Claim C8 (counterexample): in the two-generation pedigree network of
a founder mother and her son, the son's probability of hemophilia given
that the mother's genotype is the carrier genotype is exactly 1/2, not
1/4: the deviation from 1/4 is 1/4, which is not bounded by the founder
mutation-rate term (even allowing a factor of 100 on the rate 1/30000). -/
theorem claim8_counterexample :
    compute_conditional hemNet [("H_s", "+")] [("G_m", "xX")] =
      Except.ok (1/2) ∧
    (1 : ℚ)/2 - 1/4 = 1/4 ∧ ¬ ((1 : ℚ)/4 ≤ 100 * (1/30000)) := by
  refine ⟨by decide, by norm_num, by norm_num⟩

/-- Claim C8 (amended): in the two-generation pedigree network with the
founder mutation rate 1/30000, the conditional probability of the son's
hemophilia status being positive given the mother's carrier genotype is
exactly 1/2 (the classical Mendelian expectation for a son of a carrier),
computed in exact arithmetic. -/
theorem claim8_amended_value :
    compute_conditional hemNet [("H_s", "+")] [("G_m", "xX")] =
      Except.ok (1/2) := by decide

/-- Claim C6 (counterexample): evidence with marginal probability 0 does
not always surface the division-by-zero error, because the numerator
lookup runs first: with event value outside the domain of B and evidence
P(A = a1) = 0, `compute_conditional` fails with the KeyNotFound kind and
never reaches the zero denominator. -/
theorem claim6_counterexample :
    compute_marginal cexNet ["A"] =
      Except.ok ⟨["A"], [(["a1"], 0), (["a2"], 1)]⟩ ∧
    Factor.getItem ⟨["A"], [(["a1"], 0), (["a2"], 1)]⟩ [("A", "a1")] =
      Except.ok 0 ∧
    compute_conditional cexNet [("B", "bogus")] [("A", "a1")] =
      Except.error Err.keyNotFound ∧
    Err.keyNotFound ≠ Err.zeroDivisionError := by
  refine ⟨by decide, by decide, by decide, by decide⟩

/-- Claim C6 (amended): whenever the pipeline of `compute_conditional`
reaches the denominator — the joint marginal and the numerator lookup
succeed — and the evidence's marginal probability is 0, the call fails
with the division-by-zero error kind (the ZeroProbabilityEvidence of the
specification) and never returns a numeric value. -/
theorem claim6_zero_evidence_error (bnet : BayesianNetwork)
    (event evidence : Event) (joint denomF : Factor) (num : ℚ)
    (hjoint : compute_marginal bnet
      (event.map Prod.fst ++ evidence.map Prod.fst) = Except.ok joint)
    (hnum : joint.getItem (evidence ++ event) = Except.ok num)
    (hdenomF : compute_marginal bnet (evidence.map Prod.fst) =
      Except.ok denomF)
    (hdenom : denomF.getItem evidence = Except.ok 0) :
    compute_conditional bnet event evidence =
      Except.error Err.zeroDivisionError := by
  simp only [compute_conditional, hjoint, hnum, hdenomF, hdenom]
  simp

/-- Witness for the amended C6 at a concrete network whose evidence has
zero marginal probability and whose lookups succeed. -/
theorem claim6_witness :
    compute_conditional cexNet [("B", "b1")] [("A", "a1")] =
      Except.error Err.zeroDivisionError :=
  claim6_zero_evidence_error cexNet [("B", "b1")] [("A", "a1")]
    ⟨["A", "B"], [(["a1", "b1"], 0), (["a1", "b2"], 0),
      (["a2", "b1"], 1/2), (["a2", "b2"], 1/2)]⟩
    ⟨["A"], [(["a1"], 0), (["a2"], 1)]⟩ 0
    (by decide) (by decide) (by decide) (by decide)

/-- Claim C5 (counterexample): when the query set contains a variable
that appears in no factor, the factor returned by `compute_marginal` has
a scope strictly smaller than the query set. -/
theorem claim5_counterexample :
    compute_marginal cex5Net ["A", "B"] =
      Except.ok ⟨["A"], [(["a1"], 1)]⟩ ∧
    "B" ∈ (["A", "B"] : List String) ∧
    "B" ∉ (Factor.mk ["A"] [(["a1"], 1)]).variables := by
  refine ⟨by decide, by decide, by decide⟩

theorem buildKey_error_of_missing (vars : List String) (e : Event)
    (h : ∃ v ∈ vars, dictFind e v = none) :
    ∃ v ∈ vars, dictFind e v = none ∧
      buildKey vars e = Except.error (Err.missingVariable v) := by
  induction vars with
  | nil => simp at h
  | cons v0 rest ih =>
    cases hfind : dictFind e v0 with
    | none => exact ⟨v0, by simp, hfind, by simp [buildKey, hfind]⟩
    | some x =>
      have hrest : ∃ v ∈ rest, dictFind e v = none := by
        obtain ⟨v, hv, hnone⟩ := h
        rcases List.mem_cons.mp hv with rfl | hv2
        · rw [hfind] at hnone; cases hnone
        · exact ⟨v, hv2, hnone⟩
      obtain ⟨v, hv, hnone, herr⟩ := ih hrest
      refine ⟨v, List.mem_cons_of_mem _ hv, hnone, ?_⟩
      simp [buildKey, hfind, herr, Except.map]

theorem buildKey_ok_of_covered (vars : List String) (e : Event)
    (h : ∀ v ∈ vars, (dictFind e v).isSome) :
    buildKey vars e =
      Except.ok (vars.map (fun v => (dictFind e v).getD "")) := by
  induction vars with
  | nil => rfl
  | cons v0 rest ih =>
    obtain ⟨x, hx⟩ := Option.isSome_iff_exists.mp (h v0 (by simp))
    have hrest := ih (fun v hv => h v (List.mem_cons_of_mem _ hv))
    simp [buildKey, hx, hrest, Except.map]

/-- Claim C7: the lookup contract of `Factor.__getitem__`. If the event
lacks an assignment for some scope variable, the lookup fails with the
MissingVariable kind (naming a lacking scope variable); if the event
covers the scope but the key built in scope order is absent from the
table, it fails with the KeyNotFound kind; otherwise it returns the
stored value. The operation is a pure function of the factor and event. -/
theorem claim7_lookup_contract (f : Factor) (e : Event) :
    ((∃ v ∈ f.variables, dictFind e v = none) →
      ∃ v ∈ f.variables, dictFind e v = none ∧
        f.getItem e = Except.error (Err.missingVariable v)) ∧
    ((∀ v ∈ f.variables, (dictFind e v).isSome) →
      dictFind f.values
          (f.variables.map (fun v => (dictFind e v).getD "")) = none →
        f.getItem e = Except.error Err.keyNotFound) ∧
    ((∀ v ∈ f.variables, (dictFind e v).isSome) →
      ∀ q, dictFind f.values
          (f.variables.map (fun v => (dictFind e v).getD "")) = some q →
        f.getItem e = Except.ok q) := by
  refine ⟨?_, ?_, ?_⟩
  · intro h
    obtain ⟨v, hv, hnone, herr⟩ := buildKey_error_of_missing f.variables e h
    exact ⟨v, hv, hnone, by rw [Factor.getItem, herr]⟩
  · intro hcov habs
    simp only [Factor.getItem, buildKey_ok_of_covered f.variables e hcov, habs]
  · intro hcov q hq
    simp only [Factor.getItem, buildKey_ok_of_covered f.variables e hcov, hq]

/-- Witness for C7: the three branches of the lookup contract at
concrete factors and events. -/
theorem claim7_witness :
    Factor.getItem demoF [("A", "a1")] =
      Except.error (Err.missingVariable "B") ∧
    Factor.getItem demoF [("A", "a1"), ("B", "zz")] =
      Except.error Err.keyNotFound ∧
    Factor.getItem demoF [("A", "a2"), ("B", "b1")] = Except.ok 3 := by
  refine ⟨?_, ?_, ?_⟩
  · obtain ⟨v, hv, hnone, herr⟩ :=
      (claim7_lookup_contract demoF [("A", "a1")]).1 ⟨"B", by decide, by decide⟩
    have hv2 : v = "A" ∨ v = "B" := by simpa [demoF] using hv
    have : v = "B" := by
      rcases hv2 with rfl | rfl
      · exact absurd hnone (by decide)
      · rfl
    rwa [this] at herr
  · exact (claim7_lookup_contract demoF [("A", "a1"), ("B", "zz")]).2.1
      (by decide) (by decide)
  · exact (claim7_lookup_contract demoF [("A", "a2"), ("B", "b1")]).2.2
      (by decide) 3 (by decide)

theorem dictFind_eq_none_iff {α β : Type} [DecidableEq α]
    (d : List (α × β)) (k : α) :
    dictFind d k = none ↔ k ∉ d.map Prod.fst := by
  induction d with
  | nil => simp [dictFind]
  | cons p rest ih =>
    obtain ⟨k', v⟩ := p
    by_cases h : k' = k
    · subst h
      simp [dictFind]
    · simp only [dictFind, if_neg h, List.map_cons, List.mem_cons, not_or, ih]
      constructor
      · intro hk
        exact ⟨fun hc => h hc.symm, hk⟩
      · exact fun hk => hk.2

theorem dictFind_mem {α β : Type} [DecidableEq α] {d : List (α × β)}
    {k : α} {b : β} (h : dictFind d k = some b) : (k, b) ∈ d := by
  induction d with
  | nil => cases h
  | cons p rest ih =>
    obtain ⟨k', v⟩ := p
    by_cases hk : k' = k
    · subst hk
      simp [dictFind] at h
      simp [h]
    · simp [dictFind, hk] at h
      exact List.mem_cons_of_mem _ (ih h)

theorem dictFind_isSome_iff {α β : Type} [DecidableEq α]
    (d : List (α × β)) (k : α) :
    (dictFind d k).isSome ↔ k ∈ d.map Prod.fst := by
  constructor
  · intro h
    rcases Option.isSome_iff_exists.mp h with ⟨b, hb⟩
    exact List.mem_map_of_mem Prod.fst (dictFind_mem hb)
  · intro h
    cases hfind : dictFind d k with
    | some b => rfl
    | none => exact absurd h ((dictFind_eq_none_iff d k).mp hfind)

theorem dictSet_append {α β : Type} [DecidableEq α] (d : List (α × β))
    (k : α) (v : β) (h : k ∉ d.map Prod.fst) :
    dictSet d k v = d ++ [(k, v)] := by
  induction d with
  | nil => rfl
  | cons p rest ih =>
    obtain ⟨k', v'⟩ := p
    rw [List.map_cons, List.mem_cons, not_or] at h
    simp [dictSet, Ne.symm h.1, ih h.2]

theorem dictAdd_getD {α : Type} [DecidableEq α] (d : List (α × ℚ))
    (k k' : α) (q : ℚ) :
    (dictFind (dictAdd d k q) k').getD 0 =
      (dictFind d k').getD 0 + (if k = k' then q else 0) := by
  induction d with
  | nil =>
    by_cases h : k = k' <;> simp [dictAdd, dictFind, h, eq_comm]
  | cons p rest ih =>
    obtain ⟨k0, q0⟩ := p
    by_cases h0 : k0 = k
    · subst h0
      by_cases h1 : k0 = k'
      · subst h1
        simp [dictAdd, dictFind]
      · simp [dictAdd, dictFind, h1]
    · by_cases h1 : k0 = k'
      · subst h1
        have hkk : ¬(k = k0) := fun hc => h0 hc.symm
        simp [dictAdd, if_neg h0, dictFind, hkk]
      · simp [dictAdd, if_neg h0, dictFind, if_neg h1, ih]

theorem dictAdd_none_iff {α : Type} [DecidableEq α] (d : List (α × ℚ))
    (k k' : α) (q : ℚ) :
    dictFind (dictAdd d k q) k' = none ↔
      dictFind d k' = none ∧ k ≠ k' := by
  induction d with
  | nil =>
    by_cases h : k = k' <;> simp [dictAdd, dictFind, h, eq_comm]
  | cons p rest ih =>
    obtain ⟨k0, q0⟩ := p
    by_cases h0 : k0 = k
    · subst h0
      by_cases h1 : k0 = k'
      · subst h1
        simp [dictAdd, dictFind]
      · simp [dictAdd, dictFind, h1]
    · by_cases h1 : k0 = k'
      · subst h1
        have hkk : ¬(k = k0) := fun hc => h0 hc.symm
        simp [dictAdd, if_neg h0, dictFind, hkk]
      · simp [dictAdd, if_neg h0, dictFind, if_neg h1, ih]

theorem dictAdd_keys {α : Type} [DecidableEq α] (d : List (α × ℚ))
    (k : α) (q : ℚ) (k' : α) :
    k' ∈ (dictAdd d k q).map Prod.fst ↔
      (k' ∈ d.map Prod.fst ∨ k' = k) := by
  induction d with
  | nil => simp [dictAdd, eq_comm]
  | cons p rest ih =>
    obtain ⟨k0, q0⟩ := p
    by_cases h0 : k0 = k
    · subst h0
      simp only [dictAdd, eq_self_iff_true, if_true, List.map_cons,
        List.mem_cons]
      tauto
    · simp only [dictAdd, if_neg h0, List.map_cons, List.mem_cons, ih]
      tauto

theorem dictAdd_keys_nodup {α : Type} [DecidableEq α] {d : List (α × ℚ)}
    (k : α) (q : ℚ) (h : (d.map Prod.fst).Nodup) :
    ((dictAdd d k q).map Prod.fst).Nodup := by
  induction d with
  | nil => simp [dictAdd]
  | cons p rest ih =>
    obtain ⟨k0, q0⟩ := p
    rw [List.map_cons, List.nodup_cons] at h
    obtain ⟨hk0, hrest⟩ := h
    by_cases h0 : k0 = k
    · subst h0
      simp only [dictAdd, eq_self_iff_true, if_true, List.map_cons,
        List.nodup_cons]
      exact ⟨hk0, hrest⟩
    · simp only [dictAdd, if_neg h0, List.map_cons, List.nodup_cons]
      refine ⟨?_, ih hrest⟩
      intro hmem
      rcases (dictAdd_keys rest k q k0).mp hmem with h' | h'
      · exact hk0 h'
      · exact h0 h'

theorem dictFind_map_graph {α : Type} [DecidableEq α] (keys : List α)
    (g : α → ℚ) (k : α) (h : keys.Nodup) :
    dictFind (keys.map (fun k0 => (k0, g k0))) k =
      if k ∈ keys then some (g k) else none := by
  induction keys with
  | nil => simp [dictFind]
  | cons k0 rest ih =>
    simp at h
    by_cases hk : k0 = k
    · subst hk
      simp [dictFind]
    · simp only [List.map_cons, dictFind, if_neg hk, ih h.2]
      by_cases hmem : k ∈ rest <;> simp [hmem, Ne.symm hk]

theorem dict_eq_graph_of_nodup (d : Table)
    (h : (d.map Prod.fst).Nodup) :
    d = (d.map Prod.fst).map
      (fun k => (k, (dictFind d k).getD 0)) := by
  induction d with
  | nil => rfl
  | cons p rest ih =>
    obtain ⟨k0, q0⟩ := p
    rw [List.map_cons, List.nodup_cons] at h
    obtain ⟨hk0, hrest⟩ := h
    have hne : ∀ k ∈ rest.map Prod.fst, ¬(k0 = k) :=
      fun k hk hc => hk0 (hc ▸ hk)
    have htail : (rest.map Prod.fst).map
        (fun k => (k, (dictFind ((k0, q0) :: rest) k).getD 0)) =
        (rest.map Prod.fst).map (fun k => (k, (dictFind rest k).getD 0)) :=
      List.map_congr_left (fun k hk => by simp [dictFind, hne k hk])
    calc ((k0, q0) :: rest : Table)
        = (k0, q0) ::
            (rest.map Prod.fst).map (fun k => (k, (dictFind rest k).getD 0)) := by
          rw [← ih hrest]
      _ = (k0, q0) :: (rest.map Prod.fst).map
            (fun k => (k, (dictFind ((k0, q0) :: rest) k).getD 0)) := by
          rw [htail]
      _ = (((k0, q0) :: rest).map Prod.fst).map
            (fun k => (k, (dictFind ((k0, q0) :: rest) k).getD 0)) := by
          simp [dictFind]

theorem sum_map_add {β : Type} (l : List β) (f g : β → ℚ) :
    (l.map (fun y => f y + g y)).sum = (l.map f).sum + (l.map g).sum := by
  induction l with
  | nil => simp
  | cons x rest ih =>
    simp [ih]
    ring

theorem list_sum_comm {α β : Type} (l1 : List α) (l2 : List β)
    (g : α → β → ℚ) :
    (l1.map (fun x => (l2.map (fun y => g x y)).sum)).sum =
      (l2.map (fun y => (l1.map (fun x => g x y)).sum)).sum := by
  induction l1 with
  | nil => simp
  | cons x rest ih =>
    simp only [List.map_cons, List.sum_cons, ih, ← sum_map_add]

theorem sum_filter_eq_sum {α : Type} (l : List α) (p : α → Bool) (g : α → ℚ)
    (h : ∀ x ∈ l, p x = false → g x = 0) :
    ((l.filter p).map g).sum = (l.map g).sum := by
  induction l with
  | nil => rfl
  | cons x rest ih =>
    have ihr := ih (fun y hy => h y (List.mem_cons_of_mem _ hy))
    cases hp : p x with
    | true => simp [List.filter_cons, hp, ihr]
    | false => simp [List.filter_cons, hp, ihr, h x (by simp) hp]

theorem mem_listProd (dss : List (List String)) (t : List String) :
    t ∈ listProd dss ↔ List.Forall₂ (fun x ds => x ∈ ds) t dss := by
  induction dss generalizing t with
  | nil => simp [listProd, List.forall₂_nil_right_iff]
  | cons ds rest ih =>
    constructor
    · intro h
      simp only [listProd, List.mem_flatMap, List.mem_map] at h
      obtain ⟨x, hx, xs, hxs, rfl⟩ := h
      exact List.Forall₂.cons hx ((ih xs).mp hxs)
    · intro h
      cases h with
      | cons hx hxs =>
        simp only [listProd, List.mem_flatMap, List.mem_map]
        exact ⟨_, hx, _, (ih _).mpr hxs, rfl⟩

theorem length_of_mem_listProd {dss : List (List String)}
    {t : List String} (h : t ∈ listProd dss) : t.length = dss.length :=
  ((mem_listProd dss t).mp h).length_eq

theorem listProd_nodup (dss : List (List String))
    (h : ∀ ds ∈ dss, ds.Nodup) : (listProd dss).Nodup := by
  induction dss with
  | nil => simp [listProd]
  | cons ds rest ih =>
    have hds := h ds (by simp)
    have hrest := ih (fun d hd => h d (List.mem_cons_of_mem _ hd))
    rw [listProd, List.nodup_flatMap]
    constructor
    · intro x _
      exact hrest.map (fun a b hab => by injection hab)
    · apply List.Pairwise.imp ?_ hds
      intro a b hab t hta htb
      simp only [List.mem_map] at hta htb
      obtain ⟨xs, _, rfl⟩ := hta
      obtain ⟨ys, _, heq⟩ := htb
      injection heq with h1 h2
      exact hab h1.symm

theorem mem_dedupFO (l : List String) (u : String) :
    u ∈ dedupFO l ↔ u ∈ l := by
  induction l with
  | nil => simp [dedupFO]
  | cons v rest ih =>
    by_cases hu : u = v
    · subst hu
      simp [dedupFO]
    · simp [dedupFO, List.mem_filter, hu, ih]

theorem dedupFO_nodup (l : List String) : (dedupFO l).Nodup := by
  induction l with
  | nil => simp [dedupFO]
  | cons v rest ih =>
    rw [dedupFO, List.nodup_cons]
    refine ⟨?_, ih.filter _⟩
    intro hmem
    rcases List.mem_filter.mp hmem with ⟨_, hne⟩
    simp at hne

theorem foldl_insertNew_eq (l : List String) (acc : List String) :
    l.foldl insertNew acc = acc ++ (dedupFO l).filter (fun v => v ∉ acc) := by
  induction l generalizing acc with
  | nil => simp [dedupFO]
  | cons x rest ih =>
    rw [List.foldl_cons]
    by_cases hx : x ∈ acc
    · rw [show insertNew acc x = acc from if_pos hx, ih]
      congr 1
      rw [dedupFO, List.filter_cons, if_neg (by simp [hx]), List.filter_filter]
      apply List.filter_congr
      intro u _
      by_cases hu : u ∈ acc
      · simp [hu]
      · simp [hu]
        intro hux
        exact absurd (hux ▸ hu : x ∈ acc → False) (by simp [hx])
    · rw [show insertNew acc x = acc ++ [x] from if_neg hx, ih,
        List.append_assoc]
      congr 1
      rw [dedupFO, List.filter_cons, if_pos (by simp [hx]), List.filter_filter]
      rw [List.singleton_append]
      congr 1
      apply List.filter_congr
      intro u _
      by_cases hux : u = x
      · subst hux
        simp
      · by_cases hu : u ∈ acc <;> simp [hu, hux]

theorem unionVars_eq_flat (fs : List Factor) (acc : List String) :
    fs.foldl (fun acc f => f.variables.foldl insertNew acc) acc =
      (fs.flatMap (fun f => f.variables)).foldl insertNew acc := by
  induction fs generalizing acc with
  | nil => rfl
  | cons f rest ih =>
    rw [List.foldl_cons, List.flatMap_cons, List.foldl_append, ih]

theorem unionVars_eq_dedupFO (fs : List Factor) :
    unionVars fs = dedupFO (fs.flatMap (fun f => f.variables)) := by
  rw [unionVars, unionVars_eq_flat, foldl_insertNew_eq]
  simp

theorem mem_unionVars (fs : List Factor) (u : String) :
    u ∈ unionVars fs ↔ ∃ f ∈ fs, u ∈ f.variables := by
  rw [unionVars_eq_dedupFO, mem_dedupFO, List.mem_flatMap]

theorem unionVars_nodup (fs : List Factor) : (unionVars fs).Nodup := by
  rw [unionVars_eq_dedupFO]
  exact dedupFO_nodup _

theorem sumReduce_getD (L : Table) (idx : Nat) (acc : Table)
    (K : List String) :
    (dictFind (sumReduce L idx acc) K).getD 0 =
      (dictFind acc K).getD 0 +
        ((L.filter (fun p =>
          p.1.take idx ++ p.1.drop (idx + 1) = K)).map Prod.snd).sum := by
  induction L generalizing acc with
  | nil => simp [sumReduce]
  | cons p rest ih =>
    obtain ⟨key, value⟩ := p
    rw [sumReduce, ih, dictAdd_getD]
    by_cases hk : key.take idx ++ key.drop (idx + 1) = K
    · rw [List.filter_cons, if_pos (by simp [hk])]
      simp [hk]
      ring
    · rw [List.filter_cons, if_neg (by simp [hk])]
      simp [hk]

theorem sumReduce_none_iff (L : Table) (idx : Nat) (acc : Table)
    (K : List String) :
    dictFind (sumReduce L idx acc) K = none ↔
      dictFind acc K = none ∧
        ∀ p ∈ L, (p.1.take idx ++ p.1.drop (idx + 1)) ≠ K := by
  induction L generalizing acc with
  | nil => simp [sumReduce]
  | cons p rest ih =>
    obtain ⟨key, value⟩ := p
    rw [sumReduce, ih, dictAdd_none_iff]
    constructor
    · rintro ⟨⟨h1, h2⟩, h3⟩
      refine ⟨h1, ?_⟩
      intro q hq
      rcases List.mem_cons.mp hq with rfl | hq2
      · exact h2
      · exact h3 q hq2
    · rintro ⟨h1, h2⟩
      exact ⟨⟨h1, h2 (key, value) (List.mem_cons_self _ _)⟩,
        fun q hq => h2 q (List.mem_cons_of_mem _ hq)⟩

theorem sumReduce_keys_nodup (L : Table) (idx : Nat) (acc : Table)
    (h : (acc.map Prod.fst).Nodup) :
    ((sumReduce L idx acc).map Prod.fst).Nodup := by
  induction L generalizing acc with
  | nil => exact h
  | cons p rest ih =>
    obtain ⟨key, value⟩ := p
    rw [sumReduce]
    exact ih _ (dictAdd_keys_nodup _ _ h)

theorem dictFind_zip_map (l : List String) (σ : String → String)
    {u : String} (h : u ∈ l) :
    dictFind (l.zip (l.map σ)) u = some (σ u) := by
  induction l with
  | nil => cases h
  | cons v rest ih =>
    by_cases hv : v = u
    · subst hv
      simp [dictFind]
    · have hu : u ∈ rest := by
        rcases List.mem_cons.mp h with h1 | h1
        · exact absurd h1.symm hv
        · exact h1
      simp only [List.map_cons, List.zip_cons_cons, dictFind, if_neg hv]
      exact ih hu

theorem dictFind_zip_isSome (l t : List String)
    (hlen : t.length = l.length) {u : String} (h : u ∈ l) :
    (dictFind (l.zip t) u).isSome := by
  induction l generalizing t with
  | nil => cases h
  | cons v rest ih =>
    cases t with
    | nil => cases hlen
    | cons x t' =>
      by_cases hv : v = u
      · simp [dictFind, hv]
      · have hu : u ∈ rest := by
          rcases List.mem_cons.mp h with h1 | h1
          · exact absurd h1.symm hv
          · exact h1
        simp only [List.zip_cons_cons, dictFind, if_neg hv]
        exact ih t' (by simpa using hlen) hu

theorem forall₂_map_iff {α β γ : Type} (l : List α) (g₁ : α → β)
    (g₂ : α → γ) (R : β → γ → Prop) :
    List.Forall₂ R (l.map g₁) (l.map g₂) ↔ ∀ x ∈ l, R (g₁ x) (g₂ x) := by
  induction l with
  | nil => simp
  | cons x rest ih => simp [List.forall₂_cons, ih]

theorem dictFind_zip_mem (l : List String) (g : String → List String) :
    ∀ t : List String, t ∈ listProd (l.map g) → ∀ {u : String}, u ∈ l →
      (dictFind (l.zip t) u).getD "" ∈ g u := by
  induction l with
  | nil =>
    intro t ht u hu
    cases hu
  | cons v rest ih =>
    intro t ht u hu
    rw [List.map_cons, mem_listProd] at ht
    cases t with
    | nil => cases ht
    | cons x t' =>
      rcases List.forall₂_cons.mp ht with ⟨hx, hxs⟩
      by_cases hv : v = u
      · subst hv
        simpa [dictFind] using hx
      · have hu2 : u ∈ rest := by
          rcases List.mem_cons.mp hu with h1 | h1
          · exact absurd h1.symm hv
          · exact h1
        simp only [List.zip_cons_cons, dictFind, if_neg hv]
        exact ih t' ((mem_listProd _ _).mpr hxs) hu2

theorem map_tupleAssign_self (l t : List String) (hnd : l.Nodup)
    (hlen : t.length = l.length) : l.map (tupleAssign l t) = t := by
  induction l generalizing t with
  | nil => cases t <;> simp_all
  | cons v rest ih =>
    cases t with
    | nil => cases hlen
    | cons x t' =>
      rw [List.nodup_cons] at hnd
      rw [List.map_cons]
      have hhead : tupleAssign (v :: rest) (x :: t') v = x := by
        simp [tupleAssign, dictFind]
      have htail : rest.map (tupleAssign (v :: rest) (x :: t')) =
          rest.map (tupleAssign rest t') := by
        apply List.map_congr_left
        intro u hu
        have hv : ¬(v = u) := fun hc => hnd.1 (hc ▸ hu)
        simp only [tupleAssign, List.zip_cons_cons, dictFind, if_neg hv]
        rfl
      rw [hhead, htail, ih t' hnd.2 (by simpa using hlen)]

theorem tupleAssign_map_self (l : List String) (σ : String → String)
    {u : String} (h : u ∈ l) : tupleAssign l (l.map σ) u = σ u := by
  simp [tupleAssign, dictFind_zip_map l σ h]

theorem valueAt_congr (f : Factor) (σ1 σ2 : String → String)
    (h : ∀ u ∈ f.variables, σ1 u = σ2 u) : f.valueAt σ1 = f.valueAt σ2 := by
  unfold Factor.valueAt
  rw [List.map_congr_left h]

theorem valueAt_eq_zero_of_out {doms : Domains} {f : Factor}
    (hf : FactorWF doms f) {u : String} (hu : u ∈ f.variables)
    {σ : String → String} (hσ : σ u ∉ domOf doms u) : f.valueAt σ = 0 := by
  have hkey : (f.variables.map σ) ∉ f.values.map Prod.fst := by
    intro hmem
    have hprod : (f.variables.map σ) ∈
        listProd (f.variables.map (domOf doms)) :=
      (hf.2.2.mem_iff).mp hmem
    rw [mem_listProd, forall₂_map_iff] at hprod
    exact hσ (hprod u hu)
  unfold Factor.valueAt
  rw [(dictFind_eq_none_iff _ _).mpr hkey]
  rfl

theorem getItem_ok {doms : Domains} {f : Factor} (hf : FactorWF doms f)
    (ev : Event) (hcov : ∀ u ∈ f.variables, (dictFind ev u).isSome)
    (hkey : (f.variables.map (fun u => (dictFind ev u).getD "")) ∈
      listProd (f.variables.map (domOf doms))) :
    f.getItem ev =
      Except.ok (f.valueAt (fun u => (dictFind ev u).getD "")) := by
  have hbk := buildKey_ok_of_covered f.variables ev hcov
  have hmem : (f.variables.map (fun u => (dictFind ev u).getD "")) ∈
      f.values.map Prod.fst := (hf.2.2.mem_iff).mpr hkey
  rcases Option.isSome_iff_exists.mp
    ((dictFind_isSome_iff _ _).mpr hmem) with ⟨q, hq⟩
  rw [Factor.getItem]
  simp only [hbk, hq]
  unfold Factor.valueAt
  simp only [hq]
  rfl

theorem prodVals_ok {fs : List Factor} {ev : Event} {w : Factor → ℚ}
    (h : ∀ f ∈ fs, f.getItem ev = Except.ok (w f)) (a : ℚ) :
    prodVals fs ev a = Except.ok (a * (fs.map w).prod) := by
  induction fs generalizing a with
  | nil => simp [prodVals]
  | cons f rest ih =>
    simp only [prodVals, h f (List.mem_cons_self _ _),
      ih (fun g hg => h g (List.mem_cons_of_mem _ hg))]
    simp [mul_assoc]

theorem rawKey_ok (vars : List String) (ev : Event)
    (h : ∀ v ∈ vars, (dictFind ev v).isSome) :
    rawKey vars ev =
      Except.ok (vars.map (fun v => (dictFind ev v).getD "")) := by
  induction vars with
  | nil => rfl
  | cons v0 rest ih =>
    obtain ⟨x, hx⟩ := Option.isSome_iff_exists.mp (h v0 (by simp))
    have hrest := ih (fun v hv => h v (List.mem_cons_of_mem _ hv))
    simp [rawKey, hx, hrest, Except.map]

theorem buildVals_ok (fs : List Factor) (U : List String)
    (F : List String → ℚ) (ts : List (List String)) (acc : Table)
    (hok : ∀ t ∈ ts, prodVals fs (U.zip t) 1 = Except.ok (F t) ∧
      rawKey U (U.zip t) = Except.ok t)
    (hnd : (acc.map Prod.fst ++ ts).Nodup) :
    buildVals (ts.map (fun t => U.zip t)) fs U acc =
      Except.ok (acc ++ ts.map (fun t => (t, F t))) := by
  induction ts generalizing acc with
  | nil => simp [buildVals]
  | cons t ts' ih =>
    obtain ⟨hprod, hraw⟩ := hok t (List.mem_cons_self _ _)
    rw [List.map_cons, buildVals]
    simp only [hprod, hraw]
    have hdisj := (List.nodup_append.mp hnd).2.2
    have htacc : t ∉ acc.map Prod.fst :=
      fun hmem => hdisj hmem (List.mem_cons_self _ _)
    rw [dictSet_append _ _ _ htacc]
    have hnd' : (((acc ++ [(t, F t)]).map Prod.fst) ++ ts').Nodup := by
      rw [List.map_append, List.append_assoc]
      simpa [List.append_assoc] using hnd
    rw [ih (acc ++ [(t, F t)])
      (fun s hs => hok s (List.mem_cons_of_mem _ hs)) hnd']
    simp

theorem domLists_ok (vars : List String) (doms : Domains)
    (h : ∀ v ∈ vars, (dictFind doms v).isSome) :
    domLists vars doms = Except.ok (vars.map (domOf doms)) := by
  induction vars with
  | nil => rfl
  | cons v0 rest ih =>
    obtain ⟨dl, hdl⟩ := Option.isSome_iff_exists.mp (h v0 (by simp))
    have hrest := ih (fun v hv => h v (List.mem_cons_of_mem _ hv))
    simp [domLists, hdl, hrest, Except.map, domOf]

theorem domOf_nodup {doms : Domains} (hd : DomsWF doms) (v : String) :
    (domOf doms v).Nodup := by
  unfold domOf
  cases hfind : dictFind doms v with
  | none => simp
  | some dl => exact (hd (v, dl) (dictFind_mem hfind)).2

theorem domOf_ne_nil {doms : Domains} (hd : DomsWF doms) {v : String}
    (h : (dictFind doms v).isSome) : domOf doms v ≠ [] := by
  rcases Option.isSome_iff_exists.mp h with ⟨dl, hdl⟩
  unfold domOf
  rw [hdl]
  exact (hd (v, dl) (dictFind_mem hdl)).1

theorem listProd_domOf_nodup (doms : Domains) (l : List String)
    (hd : DomsWF doms) : (listProd (l.map (domOf doms))).Nodup := by
  apply listProd_nodup
  intro ds hds
  obtain ⟨v, _, rfl⟩ := List.mem_map.mp hds
  exact domOf_nodup hd v

theorem getItem_tuple_ok {doms : Domains} {fs : List Factor}
    (hf : ∀ f ∈ fs, FactorWF doms f) {t : List String}
    (ht : t ∈ listProd ((unionVars fs).map (domOf doms)))
    {f : Factor} (hfmem : f ∈ fs) :
    f.getItem ((unionVars fs).zip t) =
      Except.ok (f.valueAt (tupleAssign (unionVars fs) t)) := by
  have hlen : t.length = (unionVars fs).length := by
    simpa using length_of_mem_listProd ht
  have hsub : ∀ u ∈ f.variables, u ∈ unionVars fs :=
    fun u hu => (mem_unionVars fs u).mpr ⟨f, hfmem, hu⟩
  have hcov : ∀ u ∈ f.variables, (dictFind ((unionVars fs).zip t) u).isSome :=
    fun u hu => dictFind_zip_isSome _ t hlen (hsub u hu)
  have hkey : (f.variables.map
      (fun u => (dictFind ((unionVars fs).zip t) u).getD "")) ∈
      listProd (f.variables.map (domOf doms)) := by
    rw [mem_listProd, forall₂_map_iff]
    intro u hu
    exact dictFind_zip_mem _ (domOf doms) t ht (hsub u hu)
  exact getItem_ok (hf f hfmem) _ hcov hkey

theorem multiply_spec (fs : List Factor) (doms : Domains)
    (hd : DomsWF doms) (hf : ∀ f ∈ fs, FactorWF doms f) :
    multiply_factors fs doms =
      Except.ok ⟨unionVars fs, joinTable fs doms (unionVars fs)⟩ := by
  have hUdom : ∀ u ∈ unionVars fs, (dictFind doms u).isSome := by
    intro u hu
    obtain ⟨f, hfmem, hufv⟩ := (mem_unionVars fs u).mp hu
    exact (hf f hfmem).2.1 u hufv
  have hev : events (unionVars fs) doms = Except.ok
      ((listProd ((unionVars fs).map (domOf doms))).map
        (fun t => (unionVars fs).zip t)) := by
    rw [events, domLists_ok _ doms hUdom]
  have htupfacts : ∀ t ∈ listProd ((unionVars fs).map (domOf doms)),
      prodVals fs ((unionVars fs).zip t) 1 =
        Except.ok ((fs.map
          (fun f => f.valueAt (tupleAssign (unionVars fs) t))).prod) ∧
      rawKey (unionVars fs) ((unionVars fs).zip t) = Except.ok t := by
    intro t ht
    have hlen : t.length = (unionVars fs).length := by
      simpa using length_of_mem_listProd ht
    have hcovU : ∀ u ∈ unionVars fs,
        (dictFind ((unionVars fs).zip t) u).isSome :=
      fun u hu => dictFind_zip_isSome _ t hlen hu
    constructor
    · rw [prodVals_ok (fun f hfmem => getItem_tuple_ok hf ht hfmem) 1,
        one_mul]
    · rw [rawKey_ok _ _ hcovU]
      exact congrArg Except.ok
        (map_tupleAssign_self _ t (unionVars_nodup fs) hlen)
  have hnodupT := listProd_domOf_nodup doms (unionVars fs) hd
  have hbuild := buildVals_ok fs (unionVars fs)
    (fun t => (fs.map
      (fun f => f.valueAt (tupleAssign (unionVars fs) t))).prod)
    (listProd ((unionVars fs).map (domOf doms))) []
    htupfacts (by simpa using hnodupT)
  rw [multiply_factors]
  simp only [hev, hbuild]
  rw [joinTable]
  simp

theorem dictFind_joinTable_mem (fs : List Factor) (doms : Domains)
    (U : List String) (hnd : (listProd (U.map (domOf doms))).Nodup)
    {k : List String} (hk : k ∈ listProd (U.map (domOf doms))) :
    dictFind (joinTable fs doms U) k =
      some ((fs.map (fun f => f.valueAt (tupleAssign U k))).prod) := by
  unfold joinTable
  rw [dictFind_map_graph _ _ k hnd, if_pos hk]

theorem dictFind_joinTable_not_mem (fs : List Factor) (doms : Domains)
    (U : List String) (hnd : (listProd (U.map (domOf doms))).Nodup)
    {k : List String} (hk : k ∉ listProd (U.map (domOf doms))) :
    dictFind (joinTable fs doms U) k = none := by
  unfold joinTable
  rw [dictFind_map_graph _ _ k hnd, if_neg hk]

theorem joinFactor_valueAt (fs : List Factor) (doms : Domains)
    (hd : DomsWF doms) (hf : ∀ f ∈ fs, FactorWF doms f)
    (σ : String → String) :
    (Factor.mk (unionVars fs)
        (joinTable fs doms (unionVars fs))).valueAt σ =
      (fs.map (fun f => f.valueAt σ)).prod := by
  unfold Factor.valueAt
  by_cases hmem : ((unionVars fs).map σ) ∈
      listProd ((unionVars fs).map (domOf doms))
  · rw [dictFind_joinTable_mem fs doms (unionVars fs)
      (listProd_domOf_nodup doms _ hd) hmem]
    rw [Option.getD_some]
    apply congrArg List.prod
    apply List.map_congr_left
    intro f hfmem
    apply valueAt_congr
    intro u hu
    exact tupleAssign_map_self _ σ ((mem_unionVars fs u).mpr ⟨f, hfmem, hu⟩)
  · rw [dictFind_joinTable_not_mem fs doms (unionVars fs)
      (listProd_domOf_nodup doms _ hd) hmem]
    rw [Option.getD_none]
    symm
    rw [mem_listProd, forall₂_map_iff] at hmem
    push_neg at hmem
    obtain ⟨u, hu, hout⟩ := hmem
    obtain ⟨f, hfmem, hufv⟩ := (mem_unionVars fs u).mp hu
    apply List.prod_eq_zero
    rw [List.mem_map]
    exact ⟨f, hfmem, valueAt_eq_zero_of_out (hf f hfmem) hufv hout⟩

theorem joinFactor_WF (fs : List Factor) (doms : Domains)
    (hd : DomsWF doms) (hf : ∀ f ∈ fs, FactorWF doms f) :
    FactorWF doms ⟨unionVars fs, joinTable fs doms (unionVars fs)⟩ := by
  refine ⟨unionVars_nodup fs, ?_, ?_⟩
  · intro v hv
    obtain ⟨f, hfmem, hvfv⟩ := (mem_unionVars fs v).mp hv
    exact (hf f hfmem).2.1 v hvfv
  · show ((joinTable fs doms (unionVars fs)).map Prod.fst).Perm _
    unfold joinTable
    rw [List.map_map,
      show (Prod.fst ∘ fun t => (t, (List.map
        (fun f => f.valueAt (tupleAssign (unionVars fs) t)) fs).prod)) =
        fun t => t from rfl]
    simp

theorem drop_append_cons (a : List String) (d : String) (b : List String) :
    (a ++ d :: b).drop (a.length + 1) = b := by
  induction a with
  | nil => simp
  | cons x a' ih => simpa using ih

theorem take_append_cons (a : List String) (d : String) (b : List String) :
    (a ++ d :: b).take a.length = a :=
  List.take_left a (d :: b)

theorem indexOf_decomp {l : List String} {v : String} {idx : Nat}
    (h : indexOf l v = some idx) :
    ∃ pre post, l = pre ++ v :: post ∧ pre.length = idx ∧ v ∉ pre := by
  induction l generalizing idx with
  | nil => cases h
  | cons x rest ih =>
    by_cases hx : x = v
    · subst hx
      rw [indexOf, if_pos rfl] at h
      obtain rfl : (0 : Nat) = idx := by injection h
      exact ⟨[], rest, rfl, rfl, by simp⟩
    · rw [indexOf, if_neg hx] at h
      cases hrest : indexOf rest v with
      | none => rw [hrest] at h; cases h
      | some j =>
        rw [hrest] at h
        obtain rfl : j + 1 = idx := by injection h
        obtain ⟨pre, post, heq, hlen, hnotin⟩ := ih hrest
        refine ⟨x :: pre, post, by simp [heq], by simp [hlen], ?_⟩
        intro hmem
        rcases List.mem_cons.mp hmem with h1 | h1
        · exact hx h1.symm
        · exact hnotin h1

theorem mem_listProd_append (A B : List (List String)) (t : List String) :
    t ∈ listProd (A ++ B) ↔
      ∃ a b, a ∈ listProd A ∧ b ∈ listProd B ∧ t = a ++ b := by
  induction A generalizing t with
  | nil =>
    simp only [List.nil_append, listProd]
    constructor
    · intro h
      exact ⟨[], t, by simp [listProd], h, rfl⟩
    · rintro ⟨a, b, ha, hb, rfl⟩
      simp only [listProd, List.mem_singleton] at ha
      subst ha
      simpa using hb
  | cons ds A' ih =>
    constructor
    · intro h
      have h2 : t ∈ ds.flatMap
          (fun x => (listProd (A' ++ B)).map (fun xs => x :: xs)) := h
      rw [List.mem_flatMap] at h2
      obtain ⟨x, hx, ht⟩ := h2
      rw [List.mem_map] at ht
      obtain ⟨s, hs, rfl⟩ := ht
      obtain ⟨a, b, ha, hb, rfl⟩ := (ih s).mp hs
      refine ⟨x :: a, b, ?_, hb, rfl⟩
      show x :: a ∈ ds.flatMap
        (fun y => (listProd A').map (fun xs => y :: xs))
      rw [List.mem_flatMap]
      exact ⟨x, hx, List.mem_map.mpr ⟨a, ha, rfl⟩⟩
    · rintro ⟨a, b, ha, hb, rfl⟩
      have h2 : a ∈ ds.flatMap
          (fun x => (listProd A').map (fun xs => x :: xs)) := ha
      rw [List.mem_flatMap] at h2
      obtain ⟨x, hx, ht⟩ := h2
      rw [List.mem_map] at ht
      obtain ⟨a', ha', rfl⟩ := ht
      show (x :: a') ++ b ∈ ds.flatMap
        (fun y => (listProd (A' ++ B)).map (fun xs => y :: xs))
      rw [List.mem_flatMap]
      exact ⟨x, hx, List.mem_map.mpr
        ⟨a' ++ b, (ih _).mpr ⟨a', b, ha', hb, rfl⟩, rfl⟩⟩

theorem mem_listProd_append_cons (A : List (List String)) (D : List String)
    (B : List (List String)) (t : List String) :
    t ∈ listProd (A ++ D :: B) ↔
      ∃ a d b, a ∈ listProd A ∧ d ∈ D ∧ b ∈ listProd B ∧
        t = a ++ d :: b := by
  rw [mem_listProd_append]
  constructor
  · rintro ⟨a, s, ha, hs, rfl⟩
    simp only [listProd, List.mem_flatMap, List.mem_map] at hs
    obtain ⟨d, hd, b, hb, rfl⟩ := hs
    exact ⟨a, d, b, ha, hd, hb, rfl⟩
  · rintro ⟨a, d, b, ha, hd, hb, rfl⟩
    refine ⟨a, d :: b, ha, ?_, rfl⟩
    simp only [listProd, List.mem_flatMap, List.mem_map]
    exact ⟨d, hd, b, hb, rfl⟩

theorem filter_snd_graph (keys : List (List String))
    (G : List String → ℚ) (idx : Nat) (K : List String) :
    (((keys.map (fun k => (k, G k))).filter
        (fun q => q.1.take idx ++ q.1.drop (idx + 1) = K)).map Prod.snd) =
      (keys.filter (fun k => k.take idx ++ k.drop (idx + 1) = K)).map G := by
  induction keys with
  | nil => rfl
  | cons k rest ih =>
    by_cases hp : k.take idx ++ k.drop (idx + 1) = K <;>
      simp [List.filter_cons, hp, ih]

theorem sumReduce_value (T : Table) (idx : Nat)
    (A : List (List String)) (dv : List String) (B : List (List String))
    (hAlen : A.length = idx)
    (hkeys : (T.map Prod.fst).Perm (listProd (A ++ dv :: B)))
    (hnodup : (listProd (A ++ dv :: B)).Nodup) (hdvnd : dv.Nodup)
    (ka kb : List String) (hka : ka.length = idx) :
    (dictFind (sumReduce T idx []) (ka ++ kb)).getD 0 =
      (dv.map (fun d => (dictFind T (ka ++ d :: kb)).getD 0)).sum := by
  have keysNd : (T.map Prod.fst).Nodup := hkeys.nodup_iff.mpr hnodup
  have hgraph := dict_eq_graph_of_nodup T keysNd
  have hstep1 : (dictFind (sumReduce T idx []) (ka ++ kb)).getD 0 =
      ((T.filter (fun p =>
        p.1.take idx ++ p.1.drop (idx + 1) = ka ++ kb)).map Prod.snd).sum := by
    rw [sumReduce_getD]
    simp [dictFind]
  have hstep2 : ((T.filter (fun p =>
      p.1.take idx ++ p.1.drop (idx + 1) = ka ++ kb)).map Prod.snd) =
      ((T.map Prod.fst).filter (fun k =>
        k.take idx ++ k.drop (idx + 1) = ka ++ kb)).map
        (fun k => (dictFind T k).getD 0) := by
    conv_lhs => rw [hgraph]
    exact filter_snd_graph (T.map Prod.fst) _ idx (ka ++ kb)
  have hmemiff : ∀ t ∈ listProd (A ++ dv :: B),
      (t.take idx ++ t.drop (idx + 1) = ka ++ kb ↔
        ∃ d ∈ dv, t = ka ++ d :: kb) := by
    intro t ht
    obtain ⟨a, d, b, ha, hd, hb, rfl⟩ :=
      (mem_listProd_append_cons A dv B t).mp ht
    have halen : a.length = idx := by
      rw [length_of_mem_listProd ha, hAlen]
    constructor
    · intro hred
      rw [← halen, take_append_cons, drop_append_cons] at hred
      obtain ⟨rfl, rfl⟩ := List.append_inj hred (by rw [halen, hka])
      exact ⟨d, hd, rfl⟩
    · rintro ⟨d', hd', heq⟩
      rw [heq, ← hka, take_append_cons, drop_append_cons]
  have hcandNd : (dv.map (fun d => ka ++ d :: kb)).Nodup := by
    apply hdvnd.map
    intro d d' hdd
    have := List.append_cancel_left hdd
    injection this
  have hperm : ((T.map Prod.fst).filter (fun k =>
      k.take idx ++ k.drop (idx + 1) = ka ++ kb)).Perm
      (((dv.map (fun d => ka ++ d :: kb)).filter
        (fun t => t ∈ listProd (A ++ dv :: B)))) := by
    apply ((hkeys.filter _).trans ?_)
    rw [List.perm_ext_iff_of_nodup (hnodup.filter _)
      (hcandNd.filter _)]
    intro t
    rw [List.mem_filter, List.mem_filter]
    constructor
    · rintro ⟨ht, hpt⟩
      have hpt2 : t.take idx ++ t.drop (idx + 1) = ka ++ kb := by
        simpa using hpt
      obtain ⟨d, hd, rfl⟩ := (hmemiff t ht).mp hpt2
      exact ⟨List.mem_map.mpr ⟨d, hd, rfl⟩, by simpa using ht⟩
    · rintro ⟨hcand, ht2⟩
      have ht : t ∈ listProd (A ++ dv :: B) := by simpa using ht2
      obtain ⟨d, hd, rfl⟩ := List.mem_map.mp hcand
      refine ⟨ht, ?_⟩
      simp only [decide_eq_true_eq]
      exact (hmemiff _ ht).mpr ⟨d, hd, rfl⟩
  have hstep3 : ((((dv.map (fun d => ka ++ d :: kb)).filter
      (fun t => t ∈ listProd (A ++ dv :: B)))).map
        (fun k => (dictFind T k).getD 0)).sum =
      ((dv.map (fun d => ka ++ d :: kb)).map
        (fun k => (dictFind T k).getD 0)).sum := by
    apply sum_filter_eq_sum
    intro t _ htf
    have htnot : t ∉ listProd (A ++ dv :: B) := by
      intro hc
      simp [hc] at htf
    have : dictFind T t = none := by
      rw [dictFind_eq_none_iff]
      intro hc
      exact htnot (hkeys.mem_iff.mp hc)
    rw [this]
    rfl
  rw [hstep1, hstep2, (hperm.map _).sum_eq, hstep3, List.map_map]
  rfl

theorem sumReduce_keys_perm (T : Table) (idx : Nat)
    (A : List (List String)) (dv : List String) (B : List (List String))
    (hAlen : A.length = idx)
    (hkeys : (T.map Prod.fst).Perm (listProd (A ++ dv :: B)))
    (hrednodup : (listProd (A ++ B)).Nodup) (hdvne : dv ≠ []) :
    ((sumReduce T idx []).map Prod.fst).Perm (listProd (A ++ B)) := by
  apply (List.perm_ext_iff_of_nodup
    (sumReduce_keys_nodup T idx [] (by simp)) hrednodup).mpr
  intro K
  rw [← dictFind_isSome_iff]
  constructor
  · intro h
    by_contra hK
    have hnone : dictFind (sumReduce T idx []) K = none := by
      rw [sumReduce_none_iff]
      refine ⟨rfl, ?_⟩
      intro p hp heq
      have hmem : p.1 ∈ listProd (A ++ dv :: B) :=
        hkeys.mem_iff.mp (List.mem_map_of_mem Prod.fst hp)
      obtain ⟨a, d, b, ha, hb2, hb, hsplit⟩ :=
        (mem_listProd_append_cons _ _ _ _).mp hmem
      have halen : a.length = idx := by
        rw [length_of_mem_listProd ha, hAlen]
      rw [hsplit, ← halen, take_append_cons, drop_append_cons] at heq
      exact hK (heq ▸ (mem_listProd_append A B (a ++ b)).mpr
        ⟨a, b, ha, hb, rfl⟩)
    rw [hnone] at h
    cases h
  · intro hK
    obtain ⟨a, b, ha, hb, rfl⟩ := (mem_listProd_append A B K).mp hK
    obtain ⟨d0, hd0⟩ := List.exists_mem_of_ne_nil dv hdvne
    have htup : (a ++ d0 :: b) ∈ listProd (A ++ dv :: B) :=
      (mem_listProd_append_cons _ _ _ _).mpr ⟨a, d0, b, ha, hd0, hb, rfl⟩
    have hkeyT : (a ++ d0 :: b) ∈ T.map Prod.fst := hkeys.mem_iff.mpr htup
    obtain ⟨p, hp, hfst⟩ := List.mem_map.mp hkeyT
    rw [Option.isSome_iff_ne_none]
    intro hnone
    rw [sumReduce_none_iff] at hnone
    have halen : a.length = idx := by
      rw [length_of_mem_listProd ha, hAlen]
    apply hnone.2 p hp
    rw [hfst, ← halen, take_append_cons, drop_append_cons]

theorem marginalize_spec (doms : Domains) (f : Factor) (v : String)
    (hd : DomsWF doms) (hf : FactorWF doms f) (hv : v ∈ f.variables) :
    ∃ g, marginalize f v = Except.ok g ∧
      g.variables = f.variables.filter (fun u => u ≠ v) ∧
      FactorWF doms g ∧
      ∀ σ : String → String, g.valueAt σ =
        ((domOf doms v).map (fun d => f.valueAt (upd σ v d))).sum := by
  obtain ⟨idx, hidx⟩ := indexOf_mem hv
  obtain ⟨pre, post, hsplit, hprelen, hvpre⟩ := indexOf_decomp hidx
  have hnd := hf.1
  have hvpost : v ∉ post := by
    rw [hsplit] at hnd
    exact (List.nodup_cons.mp (List.nodup_append.mp hnd).2.1).1
  have hfilter : f.variables.filter (fun u => u ≠ v) = pre ++ post := by
    rw [hsplit, List.filter_append, List.filter_cons, if_neg (by simp)]
    congr 1
    · apply List.filter_eq_self.mpr
      intro u hu
      simp only [decide_eq_true_eq]
      exact fun hc => hvpre (hc ▸ hu)
    · apply List.filter_eq_self.mpr
      intro u hu
      simp only [decide_eq_true_eq]
      exact fun hc => hvpost (hc ▸ hu)
  have hmapdom : f.variables.map (domOf doms) =
      (pre.map (domOf doms)) ++
        (domOf doms v) :: (post.map (domOf doms)) := by
    rw [hsplit]
    simp
  have hAlen : (pre.map (domOf doms)).length = idx := by simp [hprelen]
  have hkeys : (f.values.map Prod.fst).Perm
      (listProd ((pre.map (domOf doms)) ++
        (domOf doms v) :: (post.map (domOf doms)))) := by
    rw [← hmapdom]
    exact hf.2.2
  have hnodupT : (listProd ((pre.map (domOf doms)) ++
      (domOf doms v) :: (post.map (domOf doms)))).Nodup := by
    rw [← hmapdom]
    exact listProd_domOf_nodup doms f.variables hd
  have hrednodup : (listProd ((pre.map (domOf doms)) ++
      (post.map (domOf doms)))).Nodup := by
    rw [← List.map_append]
    exact listProd_domOf_nodup doms (pre ++ post) hd
  have hdvnd : (domOf doms v).Nodup := domOf_nodup hd v
  have hdvne : domOf doms v ≠ [] := domOf_ne_nil hd (hf.2.1 v hv)
  refine ⟨⟨f.variables.filter (fun u => u ≠ v), sumReduce f.values idx []⟩,
    by rw [marginalize, hidx], rfl, ⟨hnd.filter _, ?_, ?_⟩, ?_⟩
  · intro u hu
    exact hf.2.1 u (List.mem_of_mem_filter hu)
  · show ((sumReduce f.values idx []).map Prod.fst).Perm _
    rw [show (Factor.mk (f.variables.filter (fun u => u ≠ v))
      (sumReduce f.values idx [])).variables =
        f.variables.filter (fun u => u ≠ v) from rfl, hfilter,
      List.map_append]
    exact sumReduce_keys_perm f.values idx _ _ _ hAlen hkeys
      hrednodup hdvne
  · intro σ
    show (dictFind (sumReduce f.values idx [])
      ((f.variables.filter (fun u => u ≠ v)).map σ)).getD 0 = _
    rw [hfilter, List.map_append]
    rw [sumReduce_value f.values idx _ _ _ hAlen hkeys hnodupT hdvnd
      (pre.map σ) (post.map σ) (by simp [hprelen])]
    apply congrArg List.sum
    apply List.map_congr_left
    intro d hd2
    have hkey : f.variables.map (upd σ v d) =
        pre.map σ ++ d :: post.map σ := by
      rw [hsplit, List.map_append, List.map_cons]
      congr 1
      · apply List.map_congr_left
        intro u hu
        have hu2 : ¬(u = v) := fun hc => hvpre (hc ▸ hu)
        simp [upd, hu2]
      · congr 1
        · simp [upd]
        · apply List.map_congr_left
          intro u hu
          have hu2 : ¬(u = v) := fun hc => hvpost (hc ▸ hu)
          simp [upd, hu2]
    unfold Factor.valueAt
    rw [hkey]

theorem prod_filter_partition (l : List Factor) (v : String)
    (g : Factor → ℚ) :
    (l.map g).prod =
      ((l.filter (fun f => v ∈ f.variables)).map g).prod *
        ((l.filter (fun f => v ∉ f.variables)).map g).prod := by
  induction l with
  | nil => simp
  | cons f rest ih =>
    by_cases hf : v ∈ f.variables
    · simp [List.filter_cons, hf, ih]
      ring
    · simp [List.filter_cons, hf, ih]
      ring

theorem eliminate_spec (net : BayesianNetwork) (v : String)
    (hd : DomsWF net.domains)
    (hf : ∀ f ∈ net.factors, FactorWF net.domains f)
    (hv : ∃ f ∈ net.factors, v ∈ f.variables) :
    ∃ net', eliminate net v = Except.ok net' ∧
      net'.domains = net.domains ∧
      (∀ f ∈ net'.factors, FactorWF net.domains f) ∧
      (∀ u, (∃ f ∈ net'.factors, u ∈ f.variables) ↔
        ((∃ f ∈ net.factors, u ∈ f.variables) ∧ u ≠ v)) ∧
      ∀ σ : String → String, netValue net' σ =
        ((domOf net.domains v).map
          (fun d => netValue net (upd σ v d))).sum := by
  have hfw : ∀ f ∈ net.factors.filter (fun f => v ∈ f.variables),
      FactorWF net.domains f :=
    fun f hf2 => hf f (List.mem_of_mem_filter hf2)
  have hjoin := multiply_spec (net.factors.filter (fun f => v ∈ f.variables))
    net.domains hd hfw
  have hJWF := joinFactor_WF (net.factors.filter (fun f => v ∈ f.variables))
    net.domains hd hfw
  have hJval := joinFactor_valueAt
    (net.factors.filter (fun f => v ∈ f.variables)) net.domains hd hfw
  have hvU : v ∈ unionVars (net.factors.filter (fun f => v ∈ f.variables)) := by
    obtain ⟨f, hfmem, hvf⟩ := hv
    exact (mem_unionVars _ v).mpr
      ⟨f, List.mem_filter.mpr ⟨hfmem, by simp [hvf]⟩, hvf⟩
  obtain ⟨g, hgmarg, hgvars, hgWF, hgval⟩ := marginalize_spec net.domains
    ⟨unionVars (net.factors.filter (fun f => v ∈ f.variables)),
      joinTable (net.factors.filter (fun f => v ∈ f.variables))
        net.domains (unionVars (net.factors.filter (fun f => v ∈ f.variables)))⟩
    v hd hJWF hvU
  refine ⟨⟨net.factors.filter (fun f => v ∉ f.variables) ++ [g],
    net.domains⟩, ?_, rfl, ?_, ?_, ?_⟩
  · rw [eliminate]
    simp only [hjoin, hgmarg]
  · intro f hfmem
    rcases List.mem_append.mp hfmem with h1 | h1
    · exact hf f (List.mem_of_mem_filter h1)
    · rw [List.mem_singleton.mp h1]
      exact hgWF
  · intro u
    constructor
    · rintro ⟨f, hfmem, humem⟩
      rcases List.mem_append.mp hfmem with h1 | h1
      · have hvnot : v ∉ f.variables := by
          have := (List.mem_filter.mp h1).2
          simpa using this
        refine ⟨⟨f, List.mem_of_mem_filter h1, humem⟩, ?_⟩
        intro hc
        exact hvnot (hc ▸ humem)
      · rw [List.mem_singleton.mp h1] at humem
        rw [hgvars] at humem
        have hu2 := List.mem_filter.mp humem
        have huU := hu2.1
        have hune : u ≠ v := by simpa using hu2.2
        obtain ⟨f', hf'mem, huf'⟩ := (mem_unionVars _ u).mp huU
        exact ⟨⟨f', List.mem_of_mem_filter hf'mem, huf'⟩, hune⟩
    · rintro ⟨⟨f, hfmem, humem⟩, hune⟩
      by_cases hvf : v ∈ f.variables
      · refine ⟨g, List.mem_append.mpr (Or.inr (by simp)), ?_⟩
        rw [hgvars, List.mem_filter]
        refine ⟨(mem_unionVars _ u).mpr
          ⟨f, List.mem_filter.mpr ⟨hfmem, by simp [hvf]⟩, humem⟩, ?_⟩
        simp [hune]
      · exact ⟨f, List.mem_append.mpr
          (Or.inl (List.mem_filter.mpr ⟨hfmem, by simp [hvf]⟩)), humem⟩
  · intro σ
    have hval1 : netValue ⟨net.factors.filter (fun f => v ∉ f.variables)
        ++ [g], net.domains⟩ σ =
        ((net.factors.filter (fun f => v ∉ f.variables)).map
          (fun f => f.valueAt σ)).prod * g.valueAt σ := by
      unfold netValue
      rw [List.map_append, List.prod_append]
      simp
    rw [hval1, hgval σ]
    have hstep : ∀ d ∈ domOf net.domains v,
        ((net.factors.filter (fun f => v ∉ f.variables)).map
          (fun f => f.valueAt σ)).prod *
          (Factor.mk (unionVars (net.factors.filter
            (fun f => v ∈ f.variables)))
            (joinTable (net.factors.filter (fun f => v ∈ f.variables))
              net.domains (unionVars (net.factors.filter
                (fun f => v ∈ f.variables))))).valueAt (upd σ v d) =
          netValue net (upd σ v d) := by
      intro d _
      rw [hJval (upd σ v d)]
      have hwo : ((net.factors.filter (fun f => v ∉ f.variables)).map
          (fun f => f.valueAt σ)).prod =
          ((net.factors.filter (fun f => v ∉ f.variables)).map
            (fun f => f.valueAt (upd σ v d))).prod := by
        apply congrArg List.prod
        apply List.map_congr_left
        intro f hfmem
        apply valueAt_congr
        intro u hu
        have hvnot : v ∉ f.variables := by
          have := (List.mem_filter.mp hfmem).2
          simpa using this
        have hune : ¬(u = v) := fun hc => hvnot (hc ▸ hu)
        simp [upd, hune]
      rw [hwo]
      unfold netValue
      rw [prod_filter_partition net.factors v
        (fun f => f.valueAt (upd σ v d))]
      ring
    rw [← List.sum_map_mul_left]
    apply congrArg List.sum
    exact List.map_congr_left hstep

theorem upd_comm (σ : String → String) (u v : String) (h : ¬(u = v))
    (x d : String) : upd (upd σ u x) v d = upd (upd σ v d) u x := by
  funext w
  by_cases hw : w = v
  · subst hw
    have hwu : ¬(w = u) := fun hc => h hc.symm
    simp [upd, hwu]
  · by_cases hw2 : w = u
    · subst hw2
      simp [upd, hw]
    · simp [upd, hw, hw2]

theorem sumOver_congr (doms : Domains) (l : List String)
    (F G : (String → String) → ℚ) (h : ∀ τ, F τ = G τ)
    (σ : String → String) : sumOver doms l F σ = sumOver doms l G σ := by
  induction l generalizing σ with
  | nil => exact h σ
  | cons v rest ih =>
    simp only [sumOver]
    apply congrArg List.sum
    apply List.map_congr_left
    intro d _
    exact ih _

theorem sumOver_pull (doms : Domains) (v : String)
    (F : (String → String) → ℚ) :
    ∀ (l : List String), v ∉ l → ∀ σ : String → String,
      sumOver doms l
        (fun τ => ((domOf doms v).map (fun d => F (upd τ v d))).sum) σ =
      ((domOf doms v).map (fun d => sumOver doms l F (upd σ v d))).sum := by
  intro l
  induction l with
  | nil =>
    intro _ σ
    rfl
  | cons u rest ih =>
    intro hv σ
    have hu : ¬(u = v) := by
      intro hc
      subst hc
      exact hv (List.mem_cons_self _ _)
    have hvrest : v ∉ rest := fun hc => hv (List.mem_cons_of_mem _ hc)
    have step1 : sumOver doms (u :: rest)
        (fun τ => ((domOf doms v).map (fun d => F (upd τ v d))).sum) σ =
        ((domOf doms u).map (fun x => ((domOf doms v).map
          (fun d => sumOver doms rest F (upd (upd σ v d) u x))).sum)).sum := by
      apply congrArg List.sum
      apply List.map_congr_left
      intro x _
      rw [ih hvrest (upd σ u x)]
      apply congrArg List.sum
      apply List.map_congr_left
      intro d _
      rw [upd_comm σ u v hu x d]
    rw [step1]
    exact list_sum_comm _ _ _

theorem sumOver_perm (doms : Domains) (F : (String → String) → ℚ)
    {l₁ l₂ : List String} (hp : l₁.Perm l₂) :
    l₁.Nodup → ∀ σ : String → String,
      sumOver doms l₁ F σ = sumOver doms l₂ F σ := by
  induction hp with
  | nil =>
    intro _ σ
    rfl
  | cons x hp' ih =>
    intro hnd σ
    simp only [sumOver]
    apply congrArg List.sum
    apply List.map_congr_left
    intro d _
    exact ih (List.nodup_cons.mp hnd).2 _
  | swap x y l =>
    intro hnd σ
    have hyx : ¬(y = x) := by
      intro hc
      subst hc
      exact (List.nodup_cons.mp hnd).1 (List.mem_cons_self _ _)
    have step1 : sumOver doms (y :: x :: l) F σ =
        ((domOf doms y).map (fun dy => ((domOf doms x).map
          (fun dx => sumOver doms l F (upd (upd σ x dx) y dy))).sum)).sum := by
      apply congrArg List.sum
      apply List.map_congr_left
      intro dy _
      apply congrArg List.sum
      apply List.map_congr_left
      intro dx _
      rw [upd_comm σ y x hyx dy dx]
    rw [step1]
    exact list_sum_comm _ _ _
  | trans hp1 hp2 ih1 ih2 =>
    intro hnd σ
    rw [ih1 hnd σ, ih2 (hp1.nodup_iff.mp hnd) σ]

theorem elimFold_spec : ∀ (order : List String) (net : BayesianNetwork),
    DomsWF net.domains → (∀ f ∈ net.factors, FactorWF net.domains f) →
    order.Nodup →
    (∀ u ∈ order, ∃ f ∈ net.factors, u ∈ f.variables) →
    ∃ net', elimFold net order = Except.ok net' ∧
      net'.domains = net.domains ∧
      (∀ f ∈ net'.factors, FactorWF net.domains f) ∧
      (∀ u, (∃ f ∈ net'.factors, u ∈ f.variables) ↔
        ((∃ f ∈ net.factors, u ∈ f.variables) ∧ u ∉ order)) ∧
      ∀ σ : String → String,
        netValue net' σ = sumOver net.domains order (netValue net) σ := by
  intro order
  induction order with
  | nil =>
    intro net hd hf _ _
    exact ⟨net, rfl, rfl, hf, fun u => by simp, fun σ => rfl⟩
  | cons v rest ih =>
    intro net hd hf hnd horder
    obtain ⟨net₁, helim, hdom₁, hWF₁, hmem₁, hval₁⟩ :=
      eliminate_spec net v hd hf (horder v (List.mem_cons_self _ _))
    have hd₁ : DomsWF net₁.domains := by
      rw [hdom₁]
      exact hd
    have hf₁ : ∀ f ∈ net₁.factors, FactorWF net₁.domains f := by
      rw [hdom₁]
      exact hWF₁
    have hnd' := (List.nodup_cons.mp hnd).2
    have hvrest : v ∉ rest := (List.nodup_cons.mp hnd).1
    have horder₁ : ∀ u ∈ rest, ∃ f ∈ net₁.factors, u ∈ f.variables := by
      intro u hu
      apply (hmem₁ u).mpr
      refine ⟨horder u (List.mem_cons_of_mem _ hu), ?_⟩
      intro hc
      exact hvrest (hc ▸ hu)
    obtain ⟨net', hfold, hdom', hWF', hmem', hval'⟩ :=
      ih net₁ hd₁ hf₁ hnd' horder₁
    refine ⟨net', ?_, ?_, ?_, ?_, ?_⟩
    · rw [elimFold]
      simp only [helim]
      exact hfold
    · rw [hdom', hdom₁]
    · rw [hdom₁] at hWF'
      exact hWF'
    · intro u
      rw [hmem' u, hmem₁ u]
      constructor
      · rintro ⟨⟨horig, hune⟩, hnotrest⟩
        refine ⟨horig, ?_⟩
        intro hc
        rcases List.mem_cons.mp hc with h1 | h1
        · exact hune h1
        · exact hnotrest h1
      · rintro ⟨horig, hnot⟩
        have h1 : u ≠ v := by
          intro hc
          subst hc
          exact hnot (List.mem_cons_self _ _)
        have h2 : u ∉ rest := fun hc => hnot (List.mem_cons_of_mem _ hc)
        exact ⟨⟨horig, h1⟩, h2⟩
    · intro σ
      rw [hval' σ, hdom₁]
      rw [sumOver_congr net.domains rest (netValue net₁)
        (fun τ => ((domOf net.domains v).map
          (fun d => netValue net (upd τ v d))).sum) hval₁ σ]
      rw [sumOver_pull net.domains v (netValue net) rest hvrest σ]
      rfl

/-- Claim C1: `multiply_factors` (join) on a non-empty list of
well-formed factors returns a factor whose scope is the ordered union of
the input scopes (each variable once, by first occurrence across the
input list) and whose table maps every full assignment over the union
scope, drawn from the registry domains, to the product over the input
factors of each factor's value at the assignment projected onto its own
scope. -/
theorem claim1_join_correct (fs : List Factor) (doms : Domains)
    (hne : fs ≠ []) (hd : DomsWF doms)
    (hf : ∀ f ∈ fs, FactorWF doms f) :
    ∃ g, multiply_factors fs doms = Except.ok g ∧
      g.variables = dedupFO (fs.flatMap (fun f => f.variables)) ∧
      ∀ σ : String → String, (∀ u ∈ g.variables, σ u ∈ domOf doms u) →
        dictFind g.values (g.variables.map σ) =
          some ((fs.map (fun f => f.valueAt σ)).prod) := by
  refine ⟨_, multiply_spec fs doms hd hf, ?_, ?_⟩
  · show unionVars fs = _
    exact unionVars_eq_dedupFO fs
  · intro σ hσ
    show dictFind (joinTable fs doms (unionVars fs))
      ((unionVars fs).map σ) = _
    have hmem : ((unionVars fs).map σ) ∈
        listProd ((unionVars fs).map (domOf doms)) := by
      rw [mem_listProd, forall₂_map_iff]
      intro u hu
      exact hσ u hu
    rw [dictFind_joinTable_mem fs doms _
      (listProd_domOf_nodup doms _ hd) hmem]
    apply congrArg some
    apply congrArg List.prod
    apply List.map_congr_left
    intro f hfmem
    apply valueAt_congr
    intro u hu
    exact tupleAssign_map_self _ σ ((mem_unionVars fs u).mpr ⟨f, hfmem, hu⟩)

/-- Witness for C1 at two concrete factors and a concrete assignment. -/
theorem claim1_witness :
    ∃ g, multiply_factors [cexA, cexB] cexNet.domains = Except.ok g ∧
      dictFind g.values (g.variables.map demoσ) =
        some (([cexA, cexB].map (fun f => f.valueAt demoσ)).prod) := by
  obtain ⟨g, hg, hvars, hval⟩ := claim1_join_correct [cexA, cexB]
    cexNet.domains (by decide) (by decide) (by decide)
  refine ⟨g, hg, hval demoσ ?_⟩
  rw [hvars]
  decide

/-- Claim C2: `eliminate` preserves the joint distribution with the
eliminated variable summed out — for every well-formed network, every
variable occurring in at least one factor's scope, and every assignment,
the product of the factors of the new network equals the sum, over the
variable's registry domain, of the product of the original factors at
the assignment extended with that value. -/
theorem claim2_eliminate_sums_out (net : BayesianNetwork) (v : String)
    (h : NetWF net) (hv : ∃ f ∈ net.factors, v ∈ f.variables) :
    ∃ net', eliminate net v = Except.ok net' ∧
      ∀ σ : String → String, netValue net' σ =
        ((domOf net.domains v).map
          (fun d => netValue net (upd σ v d))).sum := by
  obtain ⟨net', h1, _, _, _, h5⟩ := eliminate_spec net v h.1 h.2 hv
  exact ⟨net', h1, h5⟩

/-- Witness for C2 at a concrete network, variable and assignment. -/
theorem claim2_witness :
    ∃ net', eliminate cexNet "B" = Except.ok net' ∧
      netValue net' demoσ =
        ((domOf cexNet.domains "B").map
          (fun d => netValue cexNet (upd demoσ "B" d))).sum := by
  obtain ⟨net', h1, h2⟩ := claim2_eliminate_sums_out cexNet "B"
    (by decide) (by decide)
  exact ⟨net', h1, h2 demoσ⟩

/-- Claim C4: elimination order independence. For a well-formed network
and query set, running the elimination pipeline with any two orderings
of the non-query variables, then joining the remaining factors, yields
factors that assign equal values to every assignment (exactly, in the
rational arithmetic of the embedding); `compute_marginal` is exactly
this pipeline at the canonical first-occurrence order. -/
theorem claim4_order_independence (bnet : BayesianNetwork)
    (qvars : List String) (order1 order2 : List String) (h : NetWF bnet)
    (h1 : order1.Perm (elimOrder bnet qvars))
    (h2 : order2.Perm (elimOrder bnet qvars)) :
    ∃ g1 g2, compute_marginal_order bnet order1 = Except.ok g1 ∧
      compute_marginal_order bnet order2 = Except.ok g2 ∧
      (∀ σ : String → String, g1.valueAt σ = g2.valueAt σ) ∧
      compute_marginal bnet qvars =
        compute_marginal_order bnet (elimOrder bnet qvars) := by
  have hordnd : (elimOrder bnet qvars).Nodup := (unionVars_nodup _).filter _
  have hrun : ∀ order : List String, order.Perm (elimOrder bnet qvars) →
      ∃ g, compute_marginal_order bnet order = Except.ok g ∧
        ∀ σ : String → String,
          g.valueAt σ = sumOver bnet.domains order (netValue bnet) σ := by
    intro order hperm
    have hnd : order.Nodup := hperm.nodup_iff.mpr hordnd
    have hordmem : ∀ u ∈ order, ∃ f ∈ bnet.factors, u ∈ f.variables := by
      intro u hu
      have hu2 : u ∈ elimOrder bnet qvars := hperm.mem_iff.mp hu
      exact (mem_unionVars _ u).mp (List.mem_of_mem_filter hu2)
    obtain ⟨net', hfold, _, hWF', _, hval'⟩ :=
      elimFold_spec order bnet h.1 h.2 hnd hordmem
    refine ⟨⟨unionVars net'.factors, joinTable net'.factors bnet.domains
      (unionVars net'.factors)⟩, ?_, ?_⟩
    · rw [compute_marginal_order]
      simp only [hfold]
      exact multiply_spec net'.factors bnet.domains h.1 hWF'
    · intro σ
      rw [joinFactor_valueAt net'.factors bnet.domains h.1 hWF' σ]
      show netValue net' σ = _
      exact hval' σ
  obtain ⟨g1, hg1, hv1⟩ := hrun order1 h1
  obtain ⟨g2, hg2, hv2⟩ := hrun order2 h2
  refine ⟨g1, g2, hg1, hg2, ?_, rfl⟩
  intro σ
  rw [hv1 σ, hv2 σ,
    sumOver_perm bnet.domains (netValue bnet) h1
      (h1.nodup_iff.mpr hordnd) σ,
    sumOver_perm bnet.domains (netValue bnet) h2
      (h2.nodup_iff.mpr hordnd) σ]

/-- Witness for C4 at a concrete network and two concrete orders. -/
theorem claim4_witness :
    ∃ g1 g2, compute_marginal_order cexNet ["A", "B"] = Except.ok g1 ∧
      compute_marginal_order cexNet ["B", "A"] = Except.ok g2 ∧
      g1.valueAt demoσ = g2.valueAt demoσ := by
  obtain ⟨g1, g2, h1, h2, h3, _⟩ := claim4_order_independence cexNet []
    ["A", "B"] ["B", "A"] (by decide) (by decide) (by decide)
  exact ⟨g1, g2, h1, h2, h3 demoσ⟩

/-- Claim C5 (amended): for a well-formed network, `compute_marginal`
succeeds and the scope of the returned factor, as a set, equals the
query set intersected with the network's variables: a query variable
appearing in no factor is silently dropped from the result's scope
(the original claim says the scope equals exactly the query set). -/
theorem claim5_marginal_scope (bnet : BayesianNetwork)
    (qvars : List String) (h : NetWF bnet) :
    ∃ g, compute_marginal bnet qvars = Except.ok g ∧
      ∀ u, u ∈ g.variables ↔ (u ∈ qvars ∧ u ∈ bnet.varsList) := by
  have hordnd : (elimOrder bnet qvars).Nodup := (unionVars_nodup _).filter _
  have hordmem : ∀ u ∈ elimOrder bnet qvars,
      ∃ f ∈ bnet.factors, u ∈ f.variables := by
    intro u hu
    exact (mem_unionVars _ u).mp (List.mem_of_mem_filter hu)
  obtain ⟨net', hfold, _, hWF', hmem', _⟩ :=
    elimFold_spec (elimOrder bnet qvars) bnet h.1 h.2 hordnd hordmem
  refine ⟨⟨unionVars net'.factors, joinTable net'.factors bnet.domains
    (unionVars net'.factors)⟩, ?_, ?_⟩
  · rw [compute_marginal]
    simp only [hfold]
    exact multiply_spec net'.factors bnet.domains h.1 hWF'
  · intro u
    show u ∈ unionVars net'.factors ↔ _
    rw [mem_unionVars, hmem' u]
    unfold elimOrder
    constructor
    · rintro ⟨hex, hnot⟩
      have huv : u ∈ bnet.varsList := (mem_unionVars _ u).mpr hex
      by_cases hq : u ∈ qvars
      · exact ⟨hq, huv⟩
      · exact absurd (List.mem_filter.mpr ⟨huv, by simp [hq]⟩) hnot
    · rintro ⟨hq, huv⟩
      refine ⟨(mem_unionVars _ u).mp huv, ?_⟩
      intro hmem
      have hnq := (List.mem_filter.mp hmem).2
      simp at hnq
      exact hnq hq

/-- Witness for the amended C5 at a concrete network and query. -/
theorem claim5_witness :
    ∃ g, compute_marginal cexNet ["A"] = Except.ok g ∧
      "A" ∈ g.variables ∧ "B" ∉ g.variables := by
  obtain ⟨g, h1, h2⟩ := claim5_marginal_scope cexNet ["A"] (by decide)
  refine ⟨g, h1, (h2 "A").mpr ⟨by decide, by decide⟩, ?_⟩
  intro hc
  exact absurd ((h2 "B").mp hc).1 (by decide)

end Bloodlines

